import Mathlib

/-!
Verification development for the chessboard-vision move-inference pipeline.

The development shallowly embeds the core components described by the spec:
the occupancy reconciler (`game_state.py`), the noise/stability state machine
(`noise_handler.py`), the change detector's focus-set logic
(`change_detector.py`), and the session-level move commit guard
(`game_session.py`).

The canonical rules engine (the `chess` library used by `game_state.py`) is an
external collaborator of the repository, not part of its sources; it is
modelled here from the spec (§4.4 "Legal-Move Authority": "a standard chess
rules engine") as a standard FIDE move generator.
-/

namespace ChessVision

/-! ## The rules-engine collaborator

Modelled from the spec: §4.4 describes the Legal-Move Authority as wrapping "a
standard rules engine exposing: canonical position, current turn, full
legal-move enumeration, occupancy-by-square query, push(move), reset".  The
engine (the `python-chess` dependency) is not part of the repository sources,
so standard chess rules are modelled here: piece placement, side to move,
castling rights, en-passant target, pseudo-legal generation and the
leaves-own-king-attacked legality filter. -/

inductive Color
  | white
  | black
deriving DecidableEq, Repr

def Color.other : Color → Color
  | .white => .black
  | .black => .white

inductive PieceType
  | pawn
  | knight
  | bishop
  | rook
  | queen
  | king
deriving DecidableEq, Repr

structure Piece where
  color : Color
  ptype : PieceType
deriving DecidableEq, Repr

/-- A square as a (file, rank) pair, 0-indexed: a1 = (0,0), h8 = (7,7).
This is the coordinate convention used throughout `game_state.py`. -/
abbrev Sq := Fin 8 × Fin 8

/-- A move as in `python-chess`: from-square, to-square, optional promotion. -/
structure Move where
  fromSq : Sq
  toSq : Sq
  promotion : Option PieceType
deriving DecidableEq, Repr

/-- Canonical board position: placement, turn, castling rights, en-passant
target square. -/
structure Board where
  placement : Sq → Option Piece
  turn : Color
  castleWK : Bool
  castleWQ : Bool
  castleBK : Bool
  castleBQ : Bool
  epSquare : Option Sq

/-- Build a square from integer coordinates, `none` when off the board. -/
def mkSq (x y : Int) : Option Sq :=
  if hx : 0 ≤ x ∧ x < 8 then
    if hy : 0 ≤ y ∧ y < 8 then
      some (⟨x.toNat, by omega⟩, ⟨y.toNat, by omega⟩)
    else none
  else none

def sqFile (s : Sq) : Int := (s.1 : Int)

def sqRank (s : Sq) : Int := (s.2 : Int)

/-- All 64 squares, file-major within rank (a1, b1, …, h1, a2, …). -/
def allSquares : List Sq :=
  (List.finRange 8).flatMap fun r => (List.finRange 8).map fun f => (f, r)

def knightOffsets : List (Int × Int) :=
  [(1, 2), (2, 1), (2, -1), (1, -2), (-1, -2), (-2, -1), (-2, 1), (-1, 2)]

def kingOffsets : List (Int × Int) :=
  [(1, 0), (1, 1), (0, 1), (-1, 1), (-1, 0), (-1, -1), (0, -1), (1, -1)]

def rookDirs : List (Int × Int) := [(1, 0), (-1, 0), (0, 1), (0, -1)]

def bishopDirs : List (Int × Int) := [(1, 1), (1, -1), (-1, 1), (-1, -1)]

/-- The squares reached from `s` stepping repeatedly by `d`, nearest first. -/
def ray (s : Sq) (d : Int × Int) : List Sq :=
  (List.range 7).filterMap fun k =>
    mkSq (sqFile s + (k + 1) * d.1) (sqRank s + (k + 1) * d.2)

/-- Targets along one sliding ray: empty squares up to and including the first
enemy piece; own pieces block. -/
def slideTargets (b : Board) (me : Color) : List Sq → List Sq
  | [] => []
  | t :: rest =>
    match b.placement t with
    | none => t :: slideTargets b me rest
    | some q => if q.color = me then [] else [t]

def pieceAt (b : Board) (s : Sq) : Option Piece := b.placement s

def isEmptySq (b : Board) (s : Sq) : Bool := (b.placement s).isNone

def hasEnemy (b : Board) (me : Color) (s : Sq) : Bool :=
  match b.placement s with
  | some q => q.color ≠ me
  | none => false

def hasOwn (b : Board) (me : Color) (s : Sq) : Bool :=
  match b.placement s with
  | some q => q.color = me
  | none => false

/-- Does a piece of color `c` standing on `s` attack square `t`?  Sliding
attacks require the squares strictly between to be empty. -/
def attacksFrom (b : Board) (c : Color) (pt : PieceType) (s t : Sq) : Bool :=
  match pt with
  | .pawn =>
    let dir : Int := if c = Color.white then 1 else -1
    decide (mkSq (sqFile s + 1) (sqRank s + dir) = some t) ||
      decide (mkSq (sqFile s - 1) (sqRank s + dir) = some t)
  | .knight =>
    knightOffsets.any fun d => decide (mkSq (sqFile s + d.1) (sqRank s + d.2) = some t)
  | .king =>
    kingOffsets.any fun d => decide (mkSq (sqFile s + d.1) (sqRank s + d.2) = some t)
  | .bishop => bishopDirs.any fun d => decide (t ∈ slideTargets b c (ray s d))
  | .rook => rookDirs.any fun d => decide (t ∈ slideTargets b c (ray s d))
  | .queen => (rookDirs ++ bishopDirs).any fun d => decide (t ∈ slideTargets b c (ray s d))

/-- Is square `t` attacked by any piece of color `c`? -/
def isAttacked (b : Board) (c : Color) (t : Sq) : Bool :=
  allSquares.any fun s =>
    match b.placement s with
    | some p => decide (p.color = c) && attacksFrom b c p.ptype s t
    | none => false

def promotionTypes : List PieceType := [.queen, .rook, .bishop, .knight]

/-- The forward direction of pawn travel. -/
def pawnDir (c : Color) : Int := if c = Color.white then 1 else -1

/-- The pawn's initial rank. -/
def pawnStartRank (c : Color) : Int := if c = Color.white then 1 else 6

/-- The promotion rank. -/
def pawnLastRank (c : Color) : Int := if c = Color.white then 7 else 0

/-- A pawn arrival at `t`: the four promotion moves on the last rank, a plain
move otherwise. -/
def promoteTo (c : Color) (s t : Sq) : List Move :=
  if sqRank t = pawnLastRank c then promotionTypes.map fun pt => ⟨s, t, some pt⟩
  else [⟨s, t, none⟩]

/-- Pawn moves from `s`: single and double pushes, diagonal captures,
en-passant captures, with four-way promotion on the last rank. -/
def pawnMoves (b : Board) (c : Color) (s : Sq) : List Move :=
  let dir : Int := pawnDir c
  let pushes :=
    match mkSq (sqFile s) (sqRank s + dir) with
    | some t1 =>
      if isEmptySq b t1 then
        promoteTo c s t1 ++
          (if sqRank s = pawnStartRank c then
            match mkSq (sqFile s) (sqRank s + 2 * dir) with
            | some t2 => if isEmptySq b t2 then [⟨s, t2, none⟩] else []
            | none => []
          else [])
      else []
    | none => []
  let caps := ([-1, 1] : List Int).flatMap fun dx =>
    match mkSq (sqFile s + dx) (sqRank s + dir) with
    | some t =>
      if hasEnemy b c t then promoteTo c s t
      else if b.epSquare = some t ∧ isEmptySq b t then [⟨s, t, none⟩]
      else []
    | none => []
  pushes ++ caps

/-- Castling moves for the king standing on its initial square: rights intact,
rook on its corner, path empty, king's start/transit/target squares not
attacked (as the standard rules require). -/
def castleMoves (b : Board) (c : Color) (s : Sq) : List Move :=
  let base : Int := if c = Color.white then 0 else 7
  let enemy := c.other
  if ¬ (sqFile s = 4 ∧ sqRank s = base) then []
  else
    let kingside :=
      let right := if c = Color.white then b.castleWK else b.castleBK
      match mkSq 5 base, mkSq 6 base, mkSq 7 base with
      | some f1, some g1, some h1 =>
        if right ∧ pieceAt b h1 = some ⟨c, .rook⟩ ∧ isEmptySq b f1 ∧ isEmptySq b g1 ∧
            ¬ isAttacked b enemy s ∧ ¬ isAttacked b enemy f1 ∧ ¬ isAttacked b enemy g1 then
          [⟨s, g1, none⟩]
        else []
      | _, _, _ => []
    let queenside :=
      let right := if c = Color.white then b.castleWQ else b.castleBQ
      match mkSq 3 base, mkSq 2 base, mkSq 1 base, mkSq 0 base with
      | some d1, some c1, some b1, some a1 =>
        if right ∧ pieceAt b a1 = some ⟨c, .rook⟩ ∧ isEmptySq b d1 ∧ isEmptySq b c1 ∧
            isEmptySq b b1 ∧
            ¬ isAttacked b enemy s ∧ ¬ isAttacked b enemy d1 ∧ ¬ isAttacked b enemy c1 then
          [⟨s, c1, none⟩]
        else []
      | _, _, _, _ => []
    kingside ++ queenside

/-- Pseudo-legal moves of the piece standing on `s` (empty when `s` does not
hold a piece of the side to move). -/
def movesFromSquare (b : Board) (s : Sq) : List Move :=
  match b.placement s with
  | none => []
  | some p =>
    if p.color ≠ b.turn then []
    else
      match p.ptype with
      | .pawn => pawnMoves b p.color s
      | .knight =>
        knightOffsets.filterMap fun d =>
          match mkSq (sqFile s + d.1) (sqRank s + d.2) with
          | some t => if hasOwn b p.color t then none else some ⟨s, t, none⟩
          | none => none
      | .bishop =>
        bishopDirs.flatMap fun d =>
          (slideTargets b p.color (ray s d)).map fun t => ⟨s, t, none⟩
      | .rook =>
        rookDirs.flatMap fun d =>
          (slideTargets b p.color (ray s d)).map fun t => ⟨s, t, none⟩
      | .queen =>
        (rookDirs ++ bishopDirs).flatMap fun d =>
          (slideTargets b p.color (ray s d)).map fun t => ⟨s, t, none⟩
      | .king =>
        (kingOffsets.filterMap fun d =>
          match mkSq (sqFile s + d.1) (sqRank s + d.2) with
          | some t => if hasOwn b p.color t then none else some ⟨s, t, none⟩
          | none => none) ++ castleMoves b p.color s

def pseudoMoves (b : Board) : List Move :=
  allSquares.flatMap fun s => movesFromSquare b s

/-- Is the move an en-passant capture (mirrors `python-chess`
`Board.is_en_passant`): target is the ep square, a pawn moves, the step is
diagonal, the target square is empty. -/
def isEnPassantMove (b : Board) (m : Move) : Bool :=
  decide (b.epSquare = some m.toSq) &&
    (match b.placement m.fromSq with
     | some p => decide (p.ptype = PieceType.pawn)
     | none => false) &&
    decide (sqFile m.fromSq ≠ sqFile m.toSq) && isEmptySq b m.toSq

/-- Is the move a capture (mirrors `python-chess` `Board.is_capture`): the
target holds an enemy piece, or the move is en passant. -/
def isCaptureMove (b : Board) (m : Move) : Bool :=
  hasEnemy b b.turn m.toSq || isEnPassantMove b m

/-- Apply a move to the board: moves the piece (with promotion), removes the
en-passant victim, shuffles the rook on castling, updates castling rights and
the en-passant target, and flips the turn.  Mirrors `python-chess`
`Board.push`. -/
def Board.push (b : Board) (m : Move) : Board :=
  match b.placement m.fromSq with
  | none => b
  | some p =>
    let src := m.fromSq
    let dst := m.toSq
    let isEp := isEnPassantMove b m
    let epVictim : Sq := (dst.1, src.2)
    let isCastle : Bool := decide (p.ptype = PieceType.king ∧
      (sqFile dst - sqFile src = 2 ∨ sqFile src - sqFile dst = 2))
    let moved : Piece :=
      match m.promotion with
      | some pt => ⟨p.color, pt⟩
      | none => p
    let rookShuffle : Sq → Option Piece → Option Piece := fun s v =>
      if isCastle then
        let rookFrom : Option Sq := if sqFile dst = 6 then mkSq 7 (sqRank src)
          else mkSq 0 (sqRank src)
        let rookTo : Option Sq := if sqFile dst = 6 then mkSq 5 (sqRank src)
          else mkSq 3 (sqRank src)
        if rookFrom = some s then none
        else if rookTo = some s then some ⟨p.color, .rook⟩
        else v
      else v
    let newPlacement : Sq → Option Piece := fun s =>
      if s = src then rookShuffle s none
      else if s = dst then rookShuffle s (some moved)
      else if isEp ∧ s = epVictim then none
      else rookShuffle s (b.placement s)
    let keeps (corner kingSq : Sq) (r : Bool) : Bool :=
      r && decide (src ≠ corner) && decide (dst ≠ corner) && decide (src ≠ kingSq)
    let newEp : Option Sq :=
      if p.ptype = PieceType.pawn ∧
          (sqRank dst - sqRank src = 2 ∨ sqRank src - sqRank dst = 2) then
        mkSq (sqFile src) ((sqRank src + sqRank dst) / 2)
      else none
    { placement := newPlacement
      turn := b.turn.other
      castleWK := keeps (⟨7, by omega⟩, ⟨0, by omega⟩) (⟨4, by omega⟩, ⟨0, by omega⟩) b.castleWK
      castleWQ := keeps (⟨0, by omega⟩, ⟨0, by omega⟩) (⟨4, by omega⟩, ⟨0, by omega⟩) b.castleWQ
      castleBK := keeps (⟨7, by omega⟩, ⟨7, by omega⟩) (⟨4, by omega⟩, ⟨7, by omega⟩) b.castleBK
      castleBQ := keeps (⟨0, by omega⟩, ⟨7, by omega⟩) (⟨4, by omega⟩, ⟨7, by omega⟩) b.castleBQ
      epSquare := newEp }

/-- The king square of color `c`, if present. -/
def kingSquare (b : Board) (c : Color) : Option Sq :=
  allSquares.find? fun s => b.placement s = some ⟨c, .king⟩

/-- Would the move leave the mover's own king attacked? -/
def leavesKingInCheck (b : Board) (m : Move) : Bool :=
  let b' := b.push m
  match kingSquare b' b.turn with
  | some k => isAttacked b' b.turn.other k
  | none => false

/-- Full legal-move enumeration: pseudo-legal moves that do not leave the
mover's king attacked.  Mirrors `python-chess` `Board.legal_moves`. -/
def legalMoves (b : Board) : List Move :=
  (pseudoMoves b).filter fun m => ¬ leavesKingInCheck b m

/-- The standard starting placement. -/
def initPlacement : Sq → Option Piece := fun s =>
  let backRank : Fin 8 → PieceType := fun f =>
    match f with
    | 0 => .rook
    | 1 => .knight
    | 2 => .bishop
    | 3 => .queen
    | 4 => .king
    | 5 => .bishop
    | 6 => .knight
    | 7 => .rook
  match s.2 with
  | 0 => some ⟨.white, backRank s.1⟩
  | 1 => some ⟨.white, .pawn⟩
  | 6 => some ⟨.black, .pawn⟩
  | 7 => some ⟨.black, backRank s.1⟩
  | _ => none

/-- The standard starting position (`chess.Board()`). -/
def initBoard : Board :=
  { placement := initPlacement
    turn := .white
    castleWK := true
    castleWQ := true
    castleBK := true
    castleBQ := true
    epSquare := none }

/-- Boards reachable from the starting position by pushing legal moves. -/
inductive ReachableBoard : Board → Prop
  | init : ReachableBoard initBoard
  | step {b : Board} {m : Move} : ReachableBoard b → m ∈ legalMoves b →
      ReachableBoard (b.push m)

/-! ## The occupancy reconciler (`game_state.py`)

`GameState` holds a `chess.Board`; its methods are embedded as functions of
the board, with mutation rendered as returning the updated board. -/

/-- The status strings returned by `GameState.process_occupancy_change`. -/
inductive Status
  | moveConfirmed
  | illegalMove
  | castlingConfirmed
  | enPassantConfirmed
  | captureConfirmed
  | ambiguousCapture
  | noValidChange
deriving DecidableEq, Repr

/-- `GameState.get_board_occupancy`: the set of (file, rank) pairs currently
occupied. -/
def getBoardOccupancy (b : Board) : Finset Sq :=
  Finset.univ.filter fun s => (b.placement s).isSome

/-- The elements of a square set as a list (Python's `list(s)`), in
square-index order. -/
def setList (A : Finset Sq) : List Sq :=
  allSquares.filter fun s => s ∈ A

/-- `GameState._validate_move`: the move as given if legal, else retried with
an automatic queen promotion, else nothing. -/
def validateMove (b : Board) (src dst : Sq) : Option Move :=
  if (⟨src, dst, none⟩ : Move) ∈ legalMoves b then some ⟨src, dst, none⟩
  else if (⟨src, dst, some .queen⟩ : Move) ∈ legalMoves b then
    some ⟨src, dst, some .queen⟩
  else none

/-- `GameState._detect_castling`: find a vanished square holding the king and
an appeared square exactly two files away on the same rank such that the king
move is legal. -/
def detectCastling (b : Board) (vanished appeared : Finset Sq) : Option Move :=
  (setList vanished).findSome? fun v =>
    match b.placement v with
    | some p =>
      if p.ptype = PieceType.king then
        (setList appeared).findSome? fun a =>
          if (sqFile a - sqFile v = 2 ∨ sqFile v - sqFile a = 2) ∧ sqRank a = sqRank v then
            if (⟨v, a, none⟩ : Move) ∈ legalMoves b then some ⟨v, a, none⟩ else none
          else none
      else none
    | none => none

/-- `GameState._detect_en_passant`: try each vanished square holding a pawn as
the attacker moving to the single appeared square; accept when the move is
legal and flagged as en passant. -/
def detectEnPassant (b : Board) (vanished appeared : Finset Sq) : Option Move :=
  match setList appeared with
  | [] => none
  | dst :: _ =>
    (setList vanished).findSome? fun src =>
      match b.placement src with
      | some p =>
        if p.ptype = PieceType.pawn then
          if (⟨src, dst, none⟩ : Move) ∈ legalMoves b ∧
              isEnPassantMove b ⟨src, dst, none⟩ then
            some ⟨src, dst, none⟩
          else none
        else none
      | none => none

/-- The candidate list built by `GameState._detect_capture`: legal captures
from `src` whose destination the vision snapshot sees occupied. -/
def detectCaptureCandidates (b : Board) (src : Sq) (grid : Finset Sq) : List Move :=
  (legalMoves b).filter fun m =>
    m.fromSq = src ∧ isCaptureMove b m ∧ m.toSq ∈ grid

/-- The three-valued result of `GameState._detect_capture`: a move (Python
returns the move), `ambiguous` (Python returns `None`), or `noCapture`
(Python returns `False`). -/
inductive CaptureResult
  | found (m : Move)
  | ambiguous
  | noCapture
deriving DecidableEq, Repr

/-- `GameState._detect_capture`. -/
def detectCapture (b : Board) (src : Sq) (grid : Finset Sq) : CaptureResult :=
  match detectCaptureCandidates b src grid with
  | [c] => .found c
  | [] => .noCapture
  | _ => .ambiguous

/-- `GameState.process_occupancy_change`: compares the vision occupancy with
the internal board, dispatches on the (|vanished|, |appeared|) pattern, and on
success pushes the resolved move.  Returns the move, the status string, and
the (possibly updated) board. -/
def processOccupancyChange (b : Board) (grid : Finset Sq) :
    Option Move × Status × Board :=
  let logical := getBoardOccupancy b
  let vanished := logical \ grid
  let appeared := grid \ logical
  if vanished.card = 1 ∧ appeared.card = 1 then
    match setList vanished, setList appeared with
    | src :: _, dst :: _ =>
      match validateMove b src dst with
      | some m => (some m, .moveConfirmed, b.push m)
      | none => (none, .illegalMove, b)
    | _, _ => (none, .noValidChange, b)
  else if vanished.card = 2 ∧ appeared.card = 2 then
    match detectCastling b vanished appeared with
    | some m => (some m, .castlingConfirmed, b.push m)
    | none => (none, .noValidChange, b)
  else if vanished.card = 2 ∧ appeared.card = 1 then
    match detectEnPassant b vanished appeared with
    | some m => (some m, .enPassantConfirmed, b.push m)
    | none => (none, .noValidChange, b)
  else if vanished.card = 1 ∧ appeared.card = 0 then
    match setList vanished with
    | src :: _ =>
      match detectCapture b src grid with
      | .found m => (some m, .captureConfirmed, b.push m)
      | .ambiguous => (none, .ambiguousCapture, b)
      | .noCapture => (none, .noValidChange, b)
    | [] => (none, .noValidChange, b)
  else (none, .noValidChange, b)

/-! ## The noise/stability state machine (`noise_handler.py`)

Mutation of the handler is rendered as returning the updated handler next to
the `(state, data)` pair the Python method returns.  The result dictionary is
modelled by the keys the downstream logic reads (`message`, `squares`,
`lifted`, `stable`); the UI-only numeric keys (`progress`, `changed_count`,
`cooldown`) are omitted.  An `Option` field is `none` when the Python dict
lacks the key. -/

inductive NoiseState
  | IDLE
  | NOISE_ACTIVE
  | MOVE_PENDING
deriving DecidableEq, Repr

structure NoiseResult where
  message : String
  squares : Option (Finset Sq) := none
  lifted : Option (Option Sq) := none
  stable : Option Bool := none
deriving DecidableEq

structure NoiseHandler where
  state : NoiseState
  pendingSquares : Finset Sq
  stableCount : Nat
  cooldownCount : Nat
  lastLiftedSquare : Option Sq
deriving DecidableEq

def NOISE_THRESHOLD : Nat := 3

def STABILITY_FRAMES : Nat := 12

def COOLDOWN_FRAMES : Nat := 5

/-- A fresh handler (`NoiseHandler.__init__`), also the result of `_reset`. -/
def NoiseHandler.init : NoiseHandler :=
  { state := .IDLE, pendingSquares := ∅, stableCount := 0, cooldownCount := 0,
    lastLiftedSquare := none }

/-- `NoiseHandler._process_idle`. -/
def processIdle (h : NoiseHandler) (changed : Finset Sq) :
    (NoiseState × NoiseResult) × NoiseHandler :=
  let n := changed.card
  if n = 0 then ((.IDLE, { message := "waiting" }), h)
  else if n > NOISE_THRESHOLD then
    ((.NOISE_ACTIVE, { message := "hand_detected" }),
      { h with state := .NOISE_ACTIVE, cooldownCount := 0 })
  else
    let lifted : Option Sq := if n = 1 then (setList changed).head? else none
    ((.MOVE_PENDING,
      { message := "detecting", squares := some changed, lifted := some lifted,
        stable := some false }),
      { h with
        state := .MOVE_PENDING, pendingSquares := changed, stableCount := 1,
        lastLiftedSquare := lifted })

/-- `NoiseHandler._process_noise`. -/
def processNoise (h : NoiseHandler) (changed : Finset Sq) :
    (NoiseState × NoiseResult) × NoiseHandler :=
  let n := changed.card
  if n = 0 then
    let cc := h.cooldownCount + 1
    if cc ≥ COOLDOWN_FRAMES then
      ((.IDLE, { message := "noise_cleared" }),
        { h with state := .IDLE, cooldownCount := 0 })
    else ((.NOISE_ACTIVE, { message := "clearing" }), { h with cooldownCount := cc })
  else if n ≤ NOISE_THRESHOLD then
    let cc := h.cooldownCount + 1
    if cc ≥ COOLDOWN_FRAMES then
      ((.MOVE_PENDING,
        { message := "detecting", squares := some changed, stable := some false }),
        { h with
          state := .MOVE_PENDING, pendingSquares := changed, stableCount := 1,
          cooldownCount := cc })
    else ((.NOISE_ACTIVE, { message := "stabilizing" }), { h with cooldownCount := cc })
  else ((.NOISE_ACTIVE, { message := "hand_active" }), { h with cooldownCount := 0 })

/-- `NoiseHandler._process_pending`. -/
def processPending (h : NoiseHandler) (changed : Finset Sq) :
    (NoiseState × NoiseResult) × NoiseHandler :=
  let n := changed.card
  if n > NOISE_THRESHOLD then
    ((.NOISE_ACTIVE, { message := "interrupted_by_hand" }),
      { h with
        state := .NOISE_ACTIVE, pendingSquares := ∅, stableCount := 0,
        cooldownCount := 0 })
  else if n = 0 then
    let sc := h.stableCount + 1
    if sc ≥ STABILITY_FRAMES then
      ((.IDLE,
        { message := "move_ready", squares := some h.pendingSquares,
          stable := some true }),
        NoiseHandler.init)
    else
      ((.MOVE_PENDING,
        { message := "stabilizing", squares := some h.pendingSquares,
          stable := some false }),
        { h with stableCount := sc })
  else if changed = h.pendingSquares then
    let sc := h.stableCount + 1
    if sc ≥ STABILITY_FRAMES then
      ((.MOVE_PENDING,
        { message := "stable_ready", squares := some h.pendingSquares,
          stable := some true }),
        { h with stableCount := sc })
    else
      ((.MOVE_PENDING,
        { message := "counting", squares := some h.pendingSquares,
          lifted := some (if h.pendingSquares.card = 1 then h.lastLiftedSquare else none),
          stable := some false }),
        { h with stableCount := sc })
  else
    let lifted : Option Sq := if n = 1 then (setList changed).head? else none
    ((.MOVE_PENDING,
      { message := "updated", squares := some changed, lifted := some lifted,
        stable := some false }),
      { h with
        pendingSquares := changed, stableCount := 1, lastLiftedSquare := lifted })

/-- `NoiseHandler.process`: dispatch on the current state. -/
def NoiseHandler.process (h : NoiseHandler) (changed : Finset Sq) :
    (NoiseState × NoiseResult) × NoiseHandler :=
  match h.state with
  | .IDLE => processIdle h changed
  | .NOISE_ACTIVE => processNoise h changed
  | .MOVE_PENDING => processPending h changed

/-- `NoiseHandler.reset`. -/
def NoiseHandler.reset (_ : NoiseHandler) : NoiseHandler := NoiseHandler.init

/-- Feed the same changed-set for `n` consecutive calls. -/
def feedRepeat (h : NoiseHandler) (changed : Finset Sq) : Nat → NoiseHandler
  | 0 => h
  | n + 1 => (feedRepeat h changed n).process changed |>.2

/-- Handlers reachable from a fresh handler by `process` and `reset` calls. -/
inductive ReachableNH : NoiseHandler → Prop
  | init : ReachableNH NoiseHandler.init
  | step {h : NoiseHandler} (changed : Finset Sq) :
      ReachableNH h → ReachableNH (h.process changed).2
  | reset {h : NoiseHandler} : ReachableNH h → ReachableNH h.reset

/-! ## The change detector's focus-square logic (`change_detector.py`)

The per-square image is abstracted to its blurred grayscale intensity (an
exact rational), so the square's mean z-score is the z-score of that
intensity.  The z-score comparison `|x-μ|/sqrt(max(σ²,1)) > z_threshold` is
embedded squared, `(x-μ)² > z_threshold²·max(σ²,1)`, which is equivalent
(both sides are nonnegative and squaring is monotone) and stays inside `ℚ`.
`detect_changes` returns the keys of the changed dict (the reported squares)
next to the updated detector. -/

structure GaussModel where
  mean : ℚ
  variance : ℚ
deriving DecidableEq

/-- Default `z_threshold` setting. -/
def zThreshold : ℚ := 5 / 2

/-- Default `alpha` (learning rate) setting. -/
def alphaRate : ℚ := 3 / 20

/-- Default `initial_variance` setting. -/
def initialVariance : ℚ := 400

/-- The test `z_score > z_threshold` of `detect_changes`, squared. -/
def zscoreExceeds (x : ℚ) (g : GaussModel) : Bool :=
  decide ((x - g.mean) * (x - g.mean) > zThreshold * zThreshold * max g.variance 1)

/-- `ChangeDetector._update_gaussian` (the `is_background` branch):
`μ ← (1-α)μ + α·x`, `σ² ← max((1-α)σ² + α·(x-μ)², 1)`. -/
def updateGaussian (g : GaussModel) (x : ℚ) : GaussModel :=
  { mean := (1 - alphaRate) * g.mean + alphaRate * x
    variance := max ((1 - alphaRate) * g.variance + alphaRate * ((x - g.mean) * (x - g.mean))) 1 }

structure ChangeDetector where
  gaussianModels : Sq → Option GaussModel
  isCalibrated : Bool
  focusSquares : Option (Finset Sq)

/-- A frame: the per-square images (`squares_dict`), abstracted to
intensities; `none` for squares absent from the dict. -/
abbrev Frame := Sq → Option ℚ

/-- The keys of `squares_dict`. -/
def frameKeys (frame : Frame) : Finset Sq :=
  Finset.univ.filter fun s => (frame s).isSome

/-- `ChangeDetector.calibrate`: mean = current intensity, variance =
`initial_variance`. -/
def calibrate (frame : Frame) : ChangeDetector :=
  { gaussianModels := fun s => (frame s).map fun x => ⟨x, initialVariance⟩
    isCalibrated := true
    focusSquares := none }

/-- `ChangeDetector.set_focus_squares`: a falsy argument (empty set or
`None`) clears the focus. -/
def setFocusSquares (cd : ChangeDetector) (squares : Option (Finset Sq)) :
    ChangeDetector :=
  { cd with focusSquares :=
      match squares with
      | some t => if t.Nonempty then some t else none
      | none => none }

/-- `ChangeDetector.detect_changes` (Gaussian mode, the default): not-yet
calibrated returns empty; a falsy `focus_squares` means all frame keys;
squares missing from the frame or the models are skipped; a stable square's
model is updated, a changed square is reported. -/
def detectChanges (cd : ChangeDetector) (frame : Frame) :
    Finset Sq × ChangeDetector :=
  if cd.isCalibrated = false then (∅, cd)
  else
    let squaresToCheck : Finset Sq :=
      match cd.focusSquares with
      | some fs => if fs.Nonempty then fs else frameKeys frame
      | none => frameKeys frame
    let isChangedSq : Sq → Bool := fun s =>
      match frame s, cd.gaussianModels s with
      | some x, some g => zscoreExceeds x g
      | _, _ => false
    let changed := squaresToCheck.filter fun s => isChangedSq s
    let newModels : Sq → Option GaussModel := fun s =>
      if s ∈ squaresToCheck then
        match frame s, cd.gaussianModels s with
        | some x, some g =>
          if zscoreExceeds x g then some g else some (updateGaussian g x)
        | _, gm => gm
      else cd.gaussianModels s
    (changed, { cd with gaussianModels := newModels })

/-! ## The session-level reconciliation path (`game_session.py`)

`_infer_move` and the commit guard of `_process_stable_move`.  The timing
machinery (stability counter, cooldown clock, noise gate) decides only
*whether* resolution runs on a frame, not what it pushes, and is elided. -/

/-- `GameSession._infer_move`: collect legal candidates across normal-move
pairs (with auto-queen retry) and from-square captures onto visually occupied
squares; accept only a unique candidate. -/
def inferMove (b : Board) (diffMissing diffExtra visionOccupied : Finset Sq) :
    Option Move :=
  let normalCands : List Move := (setList diffMissing).flatMap fun orig =>
    (setList diffExtra).filterMap fun dest =>
      if (⟨orig, dest, none⟩ : Move) ∈ legalMoves b then
        some (⟨orig, dest, none⟩ : Move)
      else if (⟨orig, dest, some .queen⟩ : Move) ∈ legalMoves b then
        some (⟨orig, dest, some .queen⟩ : Move)
      else none
  let captureCands := (setList diffMissing).flatMap fun orig =>
    (legalMoves b).filter fun m =>
      m.fromSq = orig ∧ isCaptureMove b m ∧ m.toSq ∈ visionOccupied
  let uniqueMoves := (normalCands ++ captureCands).dedup
  if uniqueMoves.length = 1 then uniqueMoves.head? else none

/-- The board mutation of `GameSession._process_stable_move` once the
stability/cooldown/noise gates admit a frame: infer a move and push it only
after the final present-tense legality check. -/
def processStableMoveCommit (b : Board) (visionOccupied : Finset Sq) :
    Option Move × Board :=
  let expected := getBoardOccupancy b
  let diffMissing := expected \ visionOccupied
  let diffExtra := visionOccupied \ expected
  match inferMove b diffMissing diffExtra visionOccupied with
  | some m => if m ∈ legalMoves b then (some m, b.push m) else (none, b)
  | none => (none, b)

/-! ## Derived notions and concrete scenarios -/

/-- Is the move a castling king-step (mirrors `python-chess`
`Board.is_castling`): the moving piece is a king stepping two files. -/
def isCastlingMove (b : Board) (m : Move) : Bool :=
  match b.placement m.fromSq with
  | some p =>
    decide (p.ptype = PieceType.king) &&
      decide (sqFile m.toSq - sqFile m.fromSq = 2 ∨ sqFile m.fromSq - sqFile m.toSq = 2)
  | none => false

/-- The occupancy snapshot implied by playing `m`, following the spec's words
(§8: "applying the occupancy diff implied by m (remove origin, add
destination, adjusting for capture/castle/en-passant squares)").  This is the
spec-side description of the diff, against which the reconciler is compared. -/
def impliedOccupancy (b : Board) (m : Move) : Finset Sq :=
  let occ := getBoardOccupancy b
  if isCastlingMove b m then
    let rookFrom : Sq := if sqFile m.toSq = 6 then (7, m.fromSq.2) else (0, m.fromSq.2)
    let rookTo : Sq := if sqFile m.toSq = 6 then (5, m.fromSq.2) else (3, m.fromSq.2)
    insert m.toSq (insert rookTo ((occ.erase m.fromSq).erase rookFrom))
  else if isEnPassantMove b m then
    insert m.toSq ((occ.erase m.fromSq).erase (m.toSq.1, m.fromSq.2))
  else if isCaptureMove b m then
    occ.erase m.fromSq
  else
    insert m.toSq (occ.erase m.fromSq)

/-- Position after 1. e4 d5 2. a3 f5: the white e4-pawn has two legal
captures (e4xd5 and e4xf5) onto squares that stay occupied. -/
def twoCapturesBoard : Board :=
  (((initBoard.push ⟨(4, 1), (4, 3), none⟩).push ⟨(3, 6), (3, 4), none⟩).push
      ⟨(0, 1), (0, 2), none⟩).push ⟨(5, 6), (5, 4), none⟩

/-- The capture e4xd5 in `twoCapturesBoard`. -/
def exd5 : Move := ⟨(4, 3), (3, 4), none⟩

/-- Position after 1. e4 a6 2. e5 d5: white may capture en passant e5xd6. -/
def epBoard : Board :=
  (((initBoard.push ⟨(4, 1), (4, 3), none⟩).push ⟨(0, 6), (0, 5), none⟩).push
      ⟨(4, 3), (4, 4), none⟩).push ⟨(3, 6), (3, 4), none⟩

/-- The en-passant capture e5xd6 in `epBoard`. -/
def exd6 : Move := ⟨(4, 4), (3, 5), none⟩

/-- The snapshot a vision system would hand the reconciler for e5xd6 when it
misses the victim square: origin e5 removed, destination d6 added, the victim
pawn d5 still seen occupied — a 1-vanished/1-appeared diff. -/
def epCaseAGrid : Finset Sq :=
  insert ((3 : Fin 8), (5 : Fin 8)) (getBoardOccupancy epBoard \ {((4 : Fin 8), (4 : Fin 8))})

/-- A single changed square, for the noise-handler scenarios. -/
def oneSquare : Finset Sq := {((0 : Fin 8), (0 : Fin 8))}

/-- Calibration frame for the focus-set scenario: three squares at
intensity 0. -/
def focusCalFrame : Frame := fun s =>
  if s = ((0 : Fin 8), (0 : Fin 8)) ∨ s = ((1 : Fin 8), (0 : Fin 8)) ∨
      s = ((2 : Fin 8), (0 : Fin 8)) then
    some 0
  else none

/-- Later frame: square (1,0) jumps to intensity 100 (a clear change), the
others stay at 0 (stable, so their background would be updated). -/
def focusTestFrame : Frame := fun s =>
  if s = ((1 : Fin 8), (0 : Fin 8)) then some 100
  else if s = ((0 : Fin 8), (0 : Fin 8)) ∨ s = ((2 : Fin 8), (0 : Fin 8)) then some 0
  else none

/-- The detector calibrated on `focusCalFrame`. -/
def focusDetector : ChangeDetector := calibrate focusCalFrame

/-- The same detector restricted to the focus set {(0,0)}. -/
def focusedDetector : ChangeDetector :=
  setFocusSquares focusDetector (some {((0 : Fin 8), (0 : Fin 8))})

/-- The MOVE_PENDING data invariant of C9. -/
def pendingInv (h : NoiseHandler) : Prop :=
  h.state = NoiseState.MOVE_PENDING →
    h.pendingSquares ≠ ∅ ∧ h.pendingSquares.card ≤ NOISE_THRESHOLD ∧ 1 ≤ h.stableCount

/-- Position after 1.e4 d5: White pawn on e4, Black pawn on d5, a unique
legal capture exd5 is available. -/
def pawnCaptureBoard : Board :=
  (initBoard.push ⟨(4, 1), (4, 3), none⟩).push ⟨(3, 6), (3, 4), none⟩

/-- The en-passant data invariant maintained by reachable boards (C1): a set
ep target square is empty, sits on rank 2 (black to move) or rank 5 (white to
move), and the doubled pawn of the side that just moved stands right behind
it. -/
def epOk (b : Board) : Prop :=
  ∀ e : Sq, b.epSquare = some e →
    isEmptySq b e = true ∧
    ((sqRank e = 2 ∧ b.turn = Color.black) ∨ (sqRank e = 5 ∧ b.turn = Color.white)) ∧
    ∃ v : Sq, v.1 = e.1 ∧ sqRank v = sqRank e - pawnDir b.turn ∧
      b.placement v = some ⟨b.turn.other, PieceType.pawn⟩

/-! ## Infrastructure lemmas -/

lemma mem_allSquares (s : Sq) : s ∈ allSquares := by
  obtain ⟨f, r⟩ := s
  unfold allSquares
  rw [List.mem_flatMap]
  exact ⟨r, List.mem_finRange r, List.mem_map.mpr ⟨f, List.mem_finRange f, rfl⟩⟩

lemma allSquares_nodup : allSquares.Nodup := by decide

lemma mem_setList {A : Finset Sq} {s : Sq} : s ∈ setList A ↔ s ∈ A := by
  unfold setList
  simp [List.mem_filter, mem_allSquares]

lemma filter_eq_singleton_of_nodup {l : List Sq} {a : Sq} (hn : l.Nodup) (ha : a ∈ l) :
    (l.filter fun s => decide (s = a)) = [a] := by
  induction l with
  | nil => cases ha
  | cons x xs ih =>
    rcases List.mem_cons.mp ha with h | h
    · subst h
      rw [List.filter_cons_of_pos (by simp)]
      have hx : a ∉ xs := (List.nodup_cons.mp hn).1
      have hnil : xs.filter (fun s => decide (s = a)) = [] := by
        rw [List.filter_eq_nil_iff]
        intro y hy
        simp only [decide_eq_true_eq]
        exact fun hyx => hx (hyx ▸ hy)
      rw [hnil]
    · have hxa : x ≠ a := by
        rintro rfl
        exact (List.nodup_cons.mp hn).1 h
      rw [List.filter_cons_of_neg (by simp [hxa])]
      exact ih (List.nodup_cons.mp hn).2 h

lemma setList_singleton (a : Sq) : setList {a} = [a] := by
  unfold setList
  calc allSquares.filter (fun s => decide (s ∈ ({a} : Finset Sq)))
      = allSquares.filter (fun s => decide (s = a)) := by
        apply List.filter_congr
        intro x _
        simp [Finset.mem_singleton]
    _ = [a] := filter_eq_singleton_of_nodup allSquares_nodup (mem_allSquares a)

/-- The 1-vanished/0-appeared path of the reconciler reduces to
`_detect_capture`'s three-valued answer. -/
lemma processOccupancyChange_caseD (b : Board) (grid : Finset Sq) (src : Sq)
    (hv : getBoardOccupancy b \ grid = {src})
    (ha : grid \ getBoardOccupancy b = ∅) :
    processOccupancyChange b grid =
      match detectCapture b src grid with
      | .found m => (some m, .captureConfirmed, b.push m)
      | .ambiguous => (none, .ambiguousCapture, b)
      | .noCapture => (none, .noValidChange, b) := by
  unfold processOccupancyChange
  dsimp only
  rw [hv, ha, setList_singleton]
  norm_num

/-! ## C2: unmatched diff patterns resolve to `no_valid_change` without
mutating the board -/

/-- C2: whenever the (|vanished|, |appeared|) pair matches none of the
reconciler's resolution patterns (1,1), (2,2), (2,1), (1,0) — in particular
whenever |vanished|+|appeared| is not in {1,2,3,4} — `process_occupancy_change`
returns no move with status `no_valid_change` and leaves the board exactly as
it was. -/
theorem c2_unmatched_diff_no_move_no_mutation (b : Board) (grid : Finset Sq)
    (h : ((getBoardOccupancy b \ grid).card, (grid \ getBoardOccupancy b).card) ∉
      ([(1, 1), (2, 2), (2, 1), (1, 0)] : List (Nat × Nat))) :
    processOccupancyChange b grid = (none, Status.noValidChange, b) := by
  simp only [List.mem_cons, List.not_mem_nil, or_false] at h
  push_neg at h
  obtain ⟨h1, h2, h3, h4⟩ := h
  unfold processOccupancyChange
  dsimp only
  split_ifs with hA hB hC hD
  · exact absurd (by rw [hA.1, hA.2]) h1
  · exact absurd (by rw [hB.1, hB.2]) h2
  · exact absurd (by rw [hC.1, hC.2]) h3
  · exact absurd (by rw [hD.1, hD.2]) h4
  · rfl

/-- Witness for C2: feeding the reconciler a snapshot identical to the
expected occupancy (a (0,0) diff) from the starting position. -/
theorem c2_witness :
    ((getBoardOccupancy initBoard \ getBoardOccupancy initBoard).card,
      (getBoardOccupancy initBoard \ getBoardOccupancy initBoard).card) ∉
        ([(1, 1), (2, 2), (2, 1), (1, 0)] : List (Nat × Nat)) ∧
    processOccupancyChange initBoard (getBoardOccupancy initBoard) =
      (none, Status.noValidChange, initBoard) :=
  ⟨by decide, c2_unmatched_diff_no_move_no_mutation _ _ (by decide)⟩

/-! ## C5 and C10: capture resolution -/

/-- C5: on a 1-vanished/0-appeared diff the reconciler enumerates exactly the
legal captures from the vanished square whose destination the snapshot sees
occupied; with two or more candidates it returns no move, status
`ambiguous_capture`, and an untouched board; with exactly one it commits that
move with status `capture_confirmed`. -/
theorem c5_capture_ambiguity (b : Board) (grid : Finset Sq) (src : Sq)
    (hv : getBoardOccupancy b \ grid = {src})
    (ha : grid \ getBoardOccupancy b = ∅) :
    (∀ m, m ∈ detectCaptureCandidates b src grid ↔
      m ∈ legalMoves b ∧ m.fromSq = src ∧ isCaptureMove b m = true ∧ m.toSq ∈ grid) ∧
    (∀ m, detectCaptureCandidates b src grid = [m] →
      processOccupancyChange b grid = (some m, Status.captureConfirmed, b.push m)) ∧
    (∀ m₁ m₂ rest, detectCaptureCandidates b src grid = m₁ :: m₂ :: rest →
      processOccupancyChange b grid = (none, Status.ambiguousCapture, b)) := by
  refine ⟨?_, ?_, ?_⟩
  · intro m
    unfold detectCaptureCandidates
    simp [List.mem_filter, and_assoc]
  · intro m hm
    rw [processOccupancyChange_caseD b grid src hv ha]
    unfold detectCapture
    rw [hm]
  · intro m₁ m₂ rest hm
    rw [processOccupancyChange_caseD b grid src hv ha]
    unfold detectCapture
    rw [hm]

/-- Witness for C5: after 1. e4 d5 2. a3 f5 the snapshot implied by e4xd5
(only e4 vanishes) admits the two candidates e4xd5 and e4xf5, so the
reconciler reports `ambiguous_capture` and leaves the board alone. -/
theorem c5_witness :
    getBoardOccupancy twoCapturesBoard \
        (getBoardOccupancy twoCapturesBoard \ {((4 : Fin 8), (3 : Fin 8))}) =
      {((4 : Fin 8), (3 : Fin 8))} ∧
    processOccupancyChange twoCapturesBoard
        (getBoardOccupancy twoCapturesBoard \ {((4 : Fin 8), (3 : Fin 8))}) =
      (none, Status.ambiguousCapture, twoCapturesBoard) :=
  ⟨by decide,
    (c5_capture_ambiguity twoCapturesBoard _ ((4 : Fin 8), (3 : Fin 8))
        (by decide) (by decide)).2.2
      ⟨(4, 3), (3, 4), none⟩ ⟨(4, 3), (5, 4), none⟩ [] (by decide)⟩

/-- C10: on a 1-vanished/0-appeared diff with zero capture candidates the
reconciler returns no move with status `no_valid_change` (not
`ambiguous_capture`, not `illegal_move`) and an untouched board. -/
theorem c10_zero_capture_candidates (b : Board) (grid : Finset Sq) (src : Sq)
    (hv : getBoardOccupancy b \ grid = {src})
    (ha : grid \ getBoardOccupancy b = ∅)
    (hc : detectCaptureCandidates b src grid = []) :
    processOccupancyChange b grid = (none, Status.noValidChange, b) := by
  rw [processOccupancyChange_caseD b grid src hv ha]
  unfold detectCapture
  rw [hc]

/-- Witness for C10: the starting position with only e2 vanished — the e2
pawn has no legal capture, and the reconciler answers `no_valid_change`. -/
theorem c10_witness :
    detectCaptureCandidates initBoard ((4 : Fin 8), (1 : Fin 8))
        (getBoardOccupancy initBoard \ {((4 : Fin 8), (1 : Fin 8))}) = [] ∧
    processOccupancyChange initBoard
        (getBoardOccupancy initBoard \ {((4 : Fin 8), (1 : Fin 8))}) =
      (none, Status.noValidChange, initBoard) :=
  ⟨by decide,
    c10_zero_capture_candidates initBoard _ ((4 : Fin 8), (1 : Fin 8))
      (by decide) (by decide) (by decide)⟩

/-! ## C8: only freshly-legal moves are ever pushed -/

lemma validateMove_mem {b : Board} {src dst : Sq} {m : Move}
    (h : validateMove b src dst = some m) : m ∈ legalMoves b := by
  unfold validateMove at h
  split_ifs at h with h1 h2
  · exact (Option.some.inj h) ▸ h1
  · exact (Option.some.inj h) ▸ h2

lemma detectCastling_mem_legal {b : Board} {v a : Finset Sq} {m : Move}
    (h : detectCastling b v a = some m) : m ∈ legalMoves b := by
  unfold detectCastling at h
  obtain ⟨x, _, hx⟩ := List.exists_of_findSome?_eq_some h
  revert hx
  cases b.placement x with
  | none => intro hx; cases hx
  | some p =>
    intro hx
    dsimp only at hx
    split_ifs at hx with hk
    obtain ⟨y, _, hy⟩ := List.exists_of_findSome?_eq_some hx
    split_ifs at hy with hgeo hleg
    exact (Option.some.inj hy) ▸ hleg

lemma detectEnPassant_mem_legal {b : Board} {v a : Finset Sq} {m : Move}
    (h : detectEnPassant b v a = some m) : m ∈ legalMoves b := by
  unfold detectEnPassant at h
  revert h
  cases setList a with
  | nil => intro h; cases h
  | cons dst rest =>
    intro h
    obtain ⟨x, _, hx⟩ := List.exists_of_findSome?_eq_some h
    revert hx
    cases b.placement x with
    | none => intro hx; cases hx
    | some p =>
      intro hx
      dsimp only at hx
      split_ifs at hx with hk hleg
      exact (Option.some.inj hx) ▸ hleg.1

lemma detectCapture_found_mem {b : Board} {src : Sq} {grid : Finset Sq} {m : Move}
    (h : detectCapture b src grid = .found m) : m ∈ legalMoves b := by
  unfold detectCapture at h
  revert h
  cases hc : detectCaptureCandidates b src grid with
  | nil => intro h; cases h
  | cons c rest =>
    cases rest with
    | nil =>
      intro h
      have hc2 : c = m := by cases h; rfl
      subst hc2
      have hmem : c ∈ detectCaptureCandidates b src grid := by
        rw [hc]
        exact List.mem_cons_self c []
      exact (List.mem_filter.mp hmem).1
    | cons c2 r2 => intro h; cases h

/-- Any move the reconciler returns is legal in the board it was given, the
returned board is its push, and a `none` answer leaves the board untouched. -/
lemma process_shape (b : Board) (grid : Finset Sq) :
    (match processOccupancyChange b grid with
     | (some m, _, bb) => m ∈ legalMoves b ∧ bb = b.push m
     | (none, _, bb) => bb = b) := by
  unfold processOccupancyChange
  dsimp only
  split_ifs with hA hB hC hD
  · cases h1 : setList (getBoardOccupancy b \ grid) with
    | nil => exact rfl
    | cons src tl =>
      cases h2 : setList (grid \ getBoardOccupancy b) with
      | nil => exact rfl
      | cons dst tl2 =>
        dsimp only
        cases h3 : validateMove b src dst with
        | none => exact rfl
        | some mv => exact ⟨validateMove_mem h3, rfl⟩
  · cases h1 : detectCastling b (getBoardOccupancy b \ grid) (grid \ getBoardOccupancy b) with
    | none => exact rfl
    | some mv => exact ⟨detectCastling_mem_legal h1, rfl⟩
  · cases h1 : detectEnPassant b (getBoardOccupancy b \ grid) (grid \ getBoardOccupancy b) with
    | none => exact rfl
    | some mv => exact ⟨detectEnPassant_mem_legal h1, rfl⟩
  · cases h1 : setList (getBoardOccupancy b \ grid) with
    | nil => exact rfl
    | cons src tl =>
      dsimp only
      cases h4 : detectCapture b src grid with
      | found mv => exact ⟨detectCapture_found_mem h4, rfl⟩
      | ambiguous => exact rfl
      | noCapture => exact rfl
  · exact rfl

/-- Same shape fact for the session-level commit path. -/
lemma commit_shape (b : Board) (vis : Finset Sq) :
    (match processStableMoveCommit b vis with
     | (some m, bb) => m ∈ legalMoves b ∧ bb = b.push m
     | (none, bb) => bb = b) := by
  unfold processStableMoveCommit
  dsimp only
  cases h1 : inferMove b (getBoardOccupancy b \ vis) (vis \ getBoardOccupancy b) vis with
  | none => exact rfl
  | some m =>
    dsimp only
    split_ifs with h2
    · exact ⟨h2, rfl⟩
    · exact rfl

/-- C8: every board mutation by either reconciliation path pushes only a move
belonging to the legal-move set generated fresh from the current position at
the moment of the push, so a reachable position stays reachable, and a failed
resolution never mutates the board. -/
theorem c8_pushes_only_fresh_legal_moves (b : Board) (grid vis : Finset Sq)
    (hr : ReachableBoard b) :
    (∀ m, (processOccupancyChange b grid).1 = some m →
      m ∈ legalMoves b ∧ (processOccupancyChange b grid).2.2 = b.push m ∧
      ReachableBoard (processOccupancyChange b grid).2.2) ∧
    ((processOccupancyChange b grid).1 = none →
      (processOccupancyChange b grid).2.2 = b) ∧
    (∀ m, (processStableMoveCommit b vis).1 = some m →
      m ∈ legalMoves b ∧ (processStableMoveCommit b vis).2 = b.push m ∧
      ReachableBoard (processStableMoveCommit b vis).2) ∧
    ((processStableMoveCommit b vis).1 = none →
      (processStableMoveCommit b vis).2 = b) := by
  have hs := process_shape b grid
  have hc := commit_shape b vis
  refine ⟨?_, ?_, ?_, ?_⟩
  · intro m hm
    rcases hp : processOccupancyChange b grid with ⟨mo, st, bb⟩
    rw [hp] at hs hm
    dsimp only at hs hm ⊢
    cases mo with
    | none => exact absurd hm (by simp)
    | some m0 =>
      obtain rfl : m0 = m := Option.some.inj hm
      obtain ⟨hleg, hbb⟩ := hs
      subst hbb
      exact ⟨hleg, rfl, hr.step hleg⟩
  · intro hm
    rcases hp : processOccupancyChange b grid with ⟨mo, st, bb⟩
    rw [hp] at hs hm
    dsimp only at hs hm ⊢
    cases mo with
    | none => exact hs
    | some m0 => exact absurd hm (by simp)
  · intro m hm
    rcases hp : processStableMoveCommit b vis with ⟨mo, bb⟩
    rw [hp] at hc hm
    dsimp only at hc hm ⊢
    cases mo with
    | none => exact absurd hm (by simp)
    | some m0 =>
      obtain rfl : m0 = m := Option.some.inj hm
      obtain ⟨hleg, hbb⟩ := hc
      subst hbb
      exact ⟨hleg, rfl, hr.step hleg⟩
  · intro hm
    rcases hp : processStableMoveCommit b vis with ⟨mo, bb⟩
    rw [hp] at hc hm
    dsimp only at hc hm ⊢
    cases mo with
    | none => exact hc
    | some m0 => exact absurd hm (by simp)

/-- Witness for C8: the starting position is reachable, and the guarantees
hold there for the e2→e4 snapshot. -/
theorem c8_witness :
    (∀ m, (processOccupancyChange initBoard
        (insert ((4 : Fin 8), (3 : Fin 8))
          (getBoardOccupancy initBoard \ {((4 : Fin 8), (1 : Fin 8))}))).1 = some m →
      m ∈ legalMoves initBoard ∧
      (processOccupancyChange initBoard
        (insert ((4 : Fin 8), (3 : Fin 8))
          (getBoardOccupancy initBoard \ {((4 : Fin 8), (1 : Fin 8))}))).2.2 =
        initBoard.push m ∧
      ReachableBoard (processOccupancyChange initBoard
        (insert ((4 : Fin 8), (3 : Fin 8))
          (getBoardOccupancy initBoard \ {((4 : Fin 8), (1 : Fin 8))}))).2.2) ∧
    ((processOccupancyChange initBoard
        (insert ((4 : Fin 8), (3 : Fin 8))
          (getBoardOccupancy initBoard \ {((4 : Fin 8), (1 : Fin 8))}))).1 = none →
      (processOccupancyChange initBoard
        (insert ((4 : Fin 8), (3 : Fin 8))
          (getBoardOccupancy initBoard \ {((4 : Fin 8), (1 : Fin 8))}))).2.2 = initBoard) ∧
    (∀ m, (processStableMoveCommit initBoard (getBoardOccupancy initBoard)).1 = some m →
      m ∈ legalMoves initBoard ∧
      (processStableMoveCommit initBoard (getBoardOccupancy initBoard)).2 =
        initBoard.push m ∧
      ReachableBoard (processStableMoveCommit initBoard (getBoardOccupancy initBoard)).2) ∧
    ((processStableMoveCommit initBoard (getBoardOccupancy initBoard)).1 = none →
      (processStableMoveCommit initBoard (getBoardOccupancy initBoard)).2 = initBoard) :=
  c8_pushes_only_fresh_legal_moves initBoard _ _ ReachableBoard.init


/-! ## C3, C4, C9: the noise/stability state machine -/

lemma feedRepeat_pending_state (s : Finset Sq) (hc1 : 1 ≤ s.card)
    (hc3 : s.card ≤ NOISE_THRESHOLD) :
    ∀ k, 1 ≤ k → k + 1 ≤ STABILITY_FRAMES →
      feedRepeat NoiseHandler.init s k =
        { state := .MOVE_PENDING, pendingSquares := s, stableCount := k,
          cooldownCount := 0,
          lastLiftedSquare := if s.card = 1 then (setList s).head? else none } := by
  intro k
  induction k with
  | zero => omega
  | succ n ih =>
    intro _ hk2
    rcases Nat.eq_zero_or_pos n with hn | hn
    · subst hn
      show (NoiseHandler.init.process s).2 = _
      unfold NoiseHandler.process processIdle NoiseHandler.init
      dsimp only
      rw [if_neg (by omega), if_neg (by omega)]
    · have hrec := ih (by omega) (by omega)
      show ((feedRepeat NoiseHandler.init s n).process s).2 = _
      rw [hrec]
      unfold NoiseHandler.process processPending
      dsimp only
      rw [if_neg (by omega), if_neg (by omega), if_pos rfl, if_neg (by unfold STABILITY_FRAMES at hk2 ⊢; omega)]


/-- C3: from a fresh IDLE handler, an empty changed-set leaves everything
unchanged; a set larger than `NOISE_THRESHOLD` transitions to NOISE_ACTIVE on
that single call; and feeding one identical set of size 1..`NOISE_THRESHOLD`
for exactly `STABILITY_FRAMES` consecutive calls yields `stable=True` on the
final call and `stable=False` on every earlier call. -/
theorem c3_noise_state_machine (s : Finset Sq) :
    (NoiseHandler.init.process ∅ = ((.IDLE, { message := "waiting" }), NoiseHandler.init)) ∧
    (s.card > NOISE_THRESHOLD →
      (NoiseHandler.init.process s).1.1 = NoiseState.NOISE_ACTIVE ∧
      (NoiseHandler.init.process s).2.state = NoiseState.NOISE_ACTIVE) ∧
    (1 ≤ s.card → s.card ≤ NOISE_THRESHOLD →
      (∀ k, 1 ≤ k → k < STABILITY_FRAMES →
        ((feedRepeat NoiseHandler.init s (k - 1)).process s).1.2.stable = some false) ∧
      ((feedRepeat NoiseHandler.init s (STABILITY_FRAMES - 1)).process s).1.2.stable =
        some true) := by
  refine ⟨?_, ?_, ?_⟩
  · unfold NoiseHandler.process processIdle NoiseHandler.init
    dsimp only
    rw [if_pos (by simp)]
  · intro hbig
    unfold NoiseHandler.process processIdle NoiseHandler.init
    dsimp only
    have h0 : ¬ ((∅ : Finset Sq) ∪ s).card = 0 ∨ True := Or.inr trivial
    rw [if_neg (show ¬ s.card = 0 by omega), if_pos hbig]
    exact ⟨rfl, rfl⟩
  · intro hc1 hc3
    constructor
    · intro k hk1 hk2
      rcases Nat.eq_or_lt_of_le hk1 with h1 | h1
      · -- first call: from IDLE
        have : k - 1 = 0 := by omega
        rw [this]
        show ((NoiseHandler.init).process s).1.2.stable = some false
        unfold NoiseHandler.process processIdle NoiseHandler.init
        dsimp only
        rw [if_neg (by omega), if_neg (by omega)]
      · -- later calls: from MOVE_PENDING with stableCount = k-1
        have hrec := feedRepeat_pending_state s hc1 hc3 (k - 1) (by omega) (by omega)
        rw [hrec]
        unfold NoiseHandler.process processPending
        dsimp only
        rw [if_neg (by omega), if_neg (by omega), if_pos rfl,
          if_neg (by unfold STABILITY_FRAMES at hk2 ⊢; omega)]
    · have hrec := feedRepeat_pending_state s hc1 hc3 (STABILITY_FRAMES - 1)
        (by unfold STABILITY_FRAMES; omega) (by unfold STABILITY_FRAMES; omega)
      rw [hrec]
      unfold NoiseHandler.process processPending
      dsimp only
      rw [if_neg (by omega), if_neg (by omega), if_pos rfl,
        if_pos (by unfold STABILITY_FRAMES; omega)]

/-- Counterexample to C4: feeding the same single square for
`STABILITY_FRAMES` calls produces a `stable=True` result (via the
`stable_ready` branch), yet the handler afterwards is still MOVE_PENDING with
its pending set intact — not IDLE with cleared data. -/
theorem c4_counterexample :
    ((feedRepeat NoiseHandler.init oneSquare 11).process oneSquare).1.2.stable = some true ∧
    ((feedRepeat NoiseHandler.init oneSquare 11).process oneSquare).2.state =
      NoiseState.MOVE_PENDING ∧
    ((feedRepeat NoiseHandler.init oneSquare 11).process oneSquare).2.pendingSquares =
      oneSquare ∧
    oneSquare ≠ ∅ := by
  refine ⟨by decide, by decide, by decide, by decide⟩

/-- C4 (amended): only the zero-changes stable path emits `move_ready` and
resets the machine to a fresh IDLE handler; the identical-nonzero-set stable
path emits `stable_ready` but leaves the handler in MOVE_PENDING with its
pending data intact (only the counter advanced). -/
theorem c4_stable_reset_only_on_zero_changes (h : NoiseHandler) (changed : Finset Sq)
    (hst : h.state = .MOVE_PENDING) :
    (changed = ∅ → STABILITY_FRAMES ≤ h.stableCount + 1 →
      h.process changed =
        ((.IDLE, ⟨"move_ready", some h.pendingSquares, none, some true⟩),
          NoiseHandler.init)) ∧
    (changed = h.pendingSquares → changed ≠ ∅ → changed.card ≤ NOISE_THRESHOLD →
      STABILITY_FRAMES ≤ h.stableCount + 1 →
      h.process changed =
        ((.MOVE_PENDING, ⟨"stable_ready", some h.pendingSquares, none, some true⟩),
          { h with stableCount := h.stableCount + 1 })) := by
  constructor
  · intro hch hsf
    subst hch
    unfold NoiseHandler.process
    rw [hst]
    unfold processPending
    dsimp only
    rw [if_neg (by simp [NOISE_THRESHOLD]), if_pos (by simp), if_pos (by omega)]
  · intro hch hne hcard hsf
    have hc0 : changed.card ≠ 0 := by
      simpa [Finset.card_eq_zero] using hne
    unfold NoiseHandler.process
    rw [hst]
    unfold processPending
    dsimp only
    rw [if_neg (by omega), if_neg (by omega), if_pos hch, if_pos (by omega)]
    rw [hst]


lemma pendingInv_init : pendingInv NoiseHandler.init := by
  intro h
  cases h

lemma pendingInv_step (h : NoiseHandler) (changed : Finset Sq) (hi : pendingInv h) :
    pendingInv (h.process changed).2 := by
  unfold NoiseHandler.process
  cases hst : h.state with
  | IDLE =>
    unfold processIdle
    dsimp only
    by_cases h0 : changed.card = 0
    · rw [if_pos h0]
      intro hs
      rw [← hst] at hs
      exact hi hs
    · rw [if_neg h0]
      by_cases h1 : changed.card > NOISE_THRESHOLD
      · rw [if_pos h1]
        intro hs
        dsimp only at hs
        simp at hs
      · rw [if_neg h1]
        intro _
        dsimp only
        exact ⟨fun he => h0 (by rw [he]; rfl), by omega, by omega⟩
  | NOISE_ACTIVE =>
    unfold processNoise
    dsimp only
    by_cases h0 : changed.card = 0
    · rw [if_pos h0]
      by_cases h2 : h.cooldownCount + 1 ≥ COOLDOWN_FRAMES
      · rw [if_pos h2]
        intro hs
        dsimp only at hs
        simp at hs
      · rw [if_neg h2]
        intro hs
        rw [← hst] at hs
        exact hi hs
    · rw [if_neg h0]
      by_cases h1 : changed.card ≤ NOISE_THRESHOLD
      · rw [if_pos h1]
        by_cases h2 : h.cooldownCount + 1 ≥ COOLDOWN_FRAMES
        · rw [if_pos h2]
          intro _
          dsimp only
          exact ⟨fun he => h0 (by rw [he]; rfl), by omega, by omega⟩
        · rw [if_neg h2]
          intro hs
          rw [← hst] at hs
          exact hi hs
      · rw [if_neg h1]
        intro hs
        rw [← hst] at hs
        exact hi hs
  | MOVE_PENDING =>
    unfold processPending
    dsimp only
    by_cases h0 : changed.card > NOISE_THRESHOLD
    · rw [if_pos h0]
      intro hs
      dsimp only at hs
      simp at hs
    · rw [if_neg h0]
      by_cases h1 : changed.card = 0
      · rw [if_pos h1]
        by_cases h2 : h.stableCount + 1 ≥ STABILITY_FRAMES
        · rw [if_pos h2]
          intro hs
          simp [NoiseHandler.init] at hs
        · rw [if_neg h2]
          intro _
          dsimp only
          obtain ⟨a, b, c⟩ := hi hst
          exact ⟨a, b, by omega⟩
      · rw [if_neg h1]
        by_cases h3 : changed = h.pendingSquares
        · rw [if_pos h3]
          by_cases h4 : h.stableCount + 1 ≥ STABILITY_FRAMES
          · rw [if_pos h4]
            intro _
            dsimp only
            obtain ⟨a, b, c⟩ := hi hst
            exact ⟨a, b, by omega⟩
          · rw [if_neg h4]
            intro _
            dsimp only
            obtain ⟨a, b, c⟩ := hi hst
            exact ⟨a, b, by omega⟩
        · rw [if_neg h3]
          intro _
          dsimp only
          exact ⟨fun he => h1 (by rw [he]; rfl), by omega, by omega⟩

lemma stable_result_squares (h : NoiseHandler) (changed : Finset Sq)
    (hs : (h.process changed).1.2.stable = some true) :
    (h.process changed).1.2.squares = some h.pendingSquares := by
  unfold NoiseHandler.process at hs ⊢
  cases hst : h.state with
  | IDLE =>
    rw [hst] at hs
    dsimp only at hs ⊢
    unfold processIdle at hs ⊢
    dsimp only at hs ⊢
    split_ifs at hs ⊢
    all_goals dsimp only at hs ⊢
    all_goals
      first
        | rfl
        | exact Option.noConfusion hs
        | exact Bool.noConfusion (Option.some.inj hs)
  | NOISE_ACTIVE =>
    rw [hst] at hs
    dsimp only at hs ⊢
    unfold processNoise at hs ⊢
    dsimp only at hs ⊢
    split_ifs at hs ⊢
    all_goals dsimp only at hs ⊢
    all_goals
      first
        | rfl
        | exact Option.noConfusion hs
        | exact Bool.noConfusion (Option.some.inj hs)
  | MOVE_PENDING =>
    rw [hst] at hs
    dsimp only at hs ⊢
    unfold processPending at hs ⊢
    dsimp only at hs ⊢
    split_ifs at hs ⊢
    all_goals dsimp only at hs ⊢
    all_goals
      first
        | rfl
        | exact Option.noConfusion hs
        | exact Bool.noConfusion (Option.some.inj hs)


/-- Witness for C3: a 4-square set triggers NOISE_ACTIVE at once, and the
single square (0,0) fed 12 times turns stable exactly on the final call. -/
theorem c3_witness :
    (({((0 : Fin 8), (0 : Fin 8)), ((1 : Fin 8), (0 : Fin 8)), ((2 : Fin 8), (0 : Fin 8)),
        ((3 : Fin 8), (0 : Fin 8))} : Finset Sq).card > NOISE_THRESHOLD ∧
      (NoiseHandler.init.process {((0 : Fin 8), (0 : Fin 8)), ((1 : Fin 8), (0 : Fin 8)),
        ((2 : Fin 8), (0 : Fin 8)), ((3 : Fin 8), (0 : Fin 8))}).1.1 =
        NoiseState.NOISE_ACTIVE) ∧
    (1 ≤ oneSquare.card ∧ oneSquare.card ≤ NOISE_THRESHOLD ∧
      ((feedRepeat NoiseHandler.init oneSquare (STABILITY_FRAMES - 1)).process
        oneSquare).1.2.stable = some true) :=
  ⟨⟨by decide, ((c3_noise_state_machine _).2.1 (by decide)).1⟩,
    by decide, by decide,
    ((c3_noise_state_machine oneSquare).2.2 (by decide) (by decide)).2⟩

/-- Witness for C4 (amended): a pending handler one frame short of stability,
fed an empty set, emits `move_ready` carrying its pending square and resets. -/
theorem c4_witness :
    NoiseHandler.process
        ⟨NoiseState.MOVE_PENDING, oneSquare, 11, 0, some ((0 : Fin 8), (0 : Fin 8))⟩ ∅ =
      ((NoiseState.IDLE, ⟨"move_ready", some oneSquare, none, some true⟩),
        NoiseHandler.init) :=
  (c4_stable_reset_only_on_zero_changes
      ⟨NoiseState.MOVE_PENDING, oneSquare, 11, 0, some ((0 : Fin 8), (0 : Fin 8))⟩ ∅
      rfl).1 rfl (by decide)

/-- C9: over every handler reachable by `process`/`reset` calls from a fresh
one, MOVE_PENDING implies a non-empty pending set of at most
`NOISE_THRESHOLD` squares and a stability counter of at least 1; and every
`stable=True` result carries exactly the handler's pending square set. -/
theorem c9_pending_data_invariant (h : NoiseHandler) (hr : ReachableNH h) :
    (h.state = NoiseState.MOVE_PENDING →
      h.pendingSquares ≠ ∅ ∧ h.pendingSquares.card ≤ NOISE_THRESHOLD ∧
      1 ≤ h.stableCount) ∧
    (∀ changed, (h.process changed).1.2.stable = some true →
      (h.process changed).1.2.squares = some h.pendingSquares) := by
  constructor
  · have hp : pendingInv h := by
      induction hr with
      | init => exact pendingInv_init
      | step changed _ ih => exact pendingInv_step _ changed ih
      | reset _ ih => exact pendingInv_init
    exact hp
  · intro changed hs
    exact stable_result_squares h changed hs

/-- Witness for C9: the guarantees at the fresh handler itself. -/
theorem c9_witness :
    (NoiseHandler.init.state = NoiseState.MOVE_PENDING →
      NoiseHandler.init.pendingSquares ≠ ∅ ∧
      NoiseHandler.init.pendingSquares.card ≤ NOISE_THRESHOLD ∧
      1 ≤ NoiseHandler.init.stableCount) ∧
    (∀ changed, (NoiseHandler.init.process changed).1.2.stable = some true →
      (NoiseHandler.init.process changed).1.2.squares =
        some NoiseHandler.init.pendingSquares) :=
  c9_pending_data_invariant NoiseHandler.init ReachableNH.init



/-! ## C6: the focus-set restriction is not semantically neutral -/

lemma c6aux_focus_reduce :
    (detectChanges focusedDetector focusTestFrame).1 =
      ({((0 : Fin 8), (0 : Fin 8))} : Finset Sq).filter
        (fun s => ((match focusTestFrame s, focusedDetector.gaussianModels s with
          | some x, some g => zscoreExceeds x g
          | _, _ => false) : Bool)) := by
  have hne : ({((0 : Fin 8), (0 : Fin 8))} : Finset Sq).Nonempty :=
    ⟨_, Finset.mem_singleton_self _⟩
  unfold detectChanges
  rw [if_neg (by decide)]
  dsimp only
  rw [show focusedDetector.focusSquares =
      (if ({((0 : Fin 8), (0 : Fin 8))} : Finset Sq).Nonempty then
        some ({((0 : Fin 8), (0 : Fin 8))} : Finset Sq) else none) from rfl]
  rw [if_pos hne]
  dsimp only
  rw [if_pos hne]

lemma c6aux_unrestricted_reports :
    ((1 : Fin 8), (0 : Fin 8)) ∈ (detectChanges focusDetector focusTestFrame).1 := by
  unfold detectChanges focusDetector calibrate
  dsimp only
  rw [if_neg (by simp)]
  simp only [Finset.mem_filter]
  constructor
  · unfold frameKeys focusTestFrame
    simp
  · unfold focusTestFrame focusCalFrame zscoreExceeds zThreshold initialVariance
    norm_num [max_def]

lemma c6aux_focused_misses :
    ((1 : Fin 8), (0 : Fin 8)) ∉ (detectChanges focusedDetector focusTestFrame).1 := by
  rw [c6aux_focus_reduce]
  simp

lemma c6aux_unrestricted_updates :
    (detectChanges focusDetector focusTestFrame).2.gaussianModels
      ((2 : Fin 8), (0 : Fin 8)) = some ⟨0, 340⟩ := by
  unfold detectChanges focusDetector calibrate
  dsimp only
  rw [if_neg (by simp)]
  dsimp only
  rw [if_pos (by unfold frameKeys focusTestFrame; simp)]
  unfold focusTestFrame focusCalFrame
  rw [if_neg (by decide), if_pos (by decide), if_pos (by decide)]
  unfold zscoreExceeds updateGaussian zThreshold alphaRate initialVariance
  norm_num [max_def]

lemma c6aux_focused_skips :
    (detectChanges focusedDetector focusTestFrame).2.gaussianModels
      ((2 : Fin 8), (0 : Fin 8)) = some ⟨0, 400⟩ := by
  have hne : ({((0 : Fin 8), (0 : Fin 8))} : Finset Sq).Nonempty :=
    ⟨_, Finset.mem_singleton_self _⟩
  unfold detectChanges
  rw [if_neg (by decide)]
  dsimp only
  rw [show focusedDetector.focusSquares =
      (if ({((0 : Fin 8), (0 : Fin 8))} : Finset Sq).Nonempty then
        some ({((0 : Fin 8), (0 : Fin 8))} : Finset Sq) else none) from rfl]
  rw [if_pos hne]
  dsimp only
  rw [if_pos hne]
  rw [if_neg (by decide)]
  show (focusedDetector.gaussianModels ((2 : Fin 8), (0 : Fin 8))) = _
  rw [show focusedDetector.gaussianModels ((2 : Fin 8), (0 : Fin 8)) =
    (focusCalFrame ((2 : Fin 8), (0 : Fin 8))).map (fun x => ⟨x, initialVariance⟩) from rfl]
  unfold focusCalFrame
  rw [if_pos (by decide)]
  unfold initialVariance
  rfl

/-- Counterexample to C6: running the calibrated detector on the same frame
with and without the focus set {(0,0)} yields different reported changed-sets
(square (1,0) jumped but is unreported under focus) and different
background-model states afterwards (stable square (2,0) is updated only by
the unrestricted run) — the restriction is not semantically neutral. -/
theorem c6_counterexample :
    (((1 : Fin 8), (0 : Fin 8)) ∈ (detectChanges focusDetector focusTestFrame).1 ∧
      ((1 : Fin 8), (0 : Fin 8)) ∉ (detectChanges focusedDetector focusTestFrame).1) ∧
    (detectChanges focusDetector focusTestFrame).1 ≠
      (detectChanges focusedDetector focusTestFrame).1 ∧
    (detectChanges focusDetector focusTestFrame).2.gaussianModels
        ((2 : Fin 8), (0 : Fin 8)) ≠
      (detectChanges focusedDetector focusTestFrame).2.gaussianModels
        ((2 : Fin 8), (0 : Fin 8)) := by
  refine ⟨⟨c6aux_unrestricted_reports, c6aux_focused_misses⟩, ?_, ?_⟩
  · intro he
    exact c6aux_focused_misses (he ▸ c6aux_unrestricted_reports)
  · intro he
    rw [c6aux_unrestricted_updates, c6aux_focused_skips] at he
    have h2 := Option.some.inj he
    have h3 : (340 : ℚ) = 400 := congrArg GaussModel.variance h2
    norm_num at h3

lemma filter_inter_of_imp {α : Type} [DecidableEq α] (p : α → Prop) [DecidablePred p]
    (K F : Finset α) (hp : ∀ s, p s → s ∈ K) :
    F.filter p = (K.filter p) ∩ F := by
  ext s
  simp only [Finset.mem_filter, Finset.mem_inter]
  constructor
  · rintro ⟨h1, h2⟩
    exact ⟨⟨hp s h2, h2⟩, h1⟩
  · rintro ⟨⟨_, h2⟩, h1⟩
    exact ⟨h1, h2⟩

/-- C6 (amended): restricting a calibrated detector to a non-empty focus set
`F` reports exactly the unrestricted changed-set intersected with `F`, leaves
the background models of squares outside `F` untouched, and agrees with the
unrestricted run on the models of squares inside `F`. -/
theorem c6_focus_semantics (cd : ChangeDetector) (frame : Frame) (F : Finset Sq)
    (hcal : cd.isCalibrated = true) (hfoc : cd.focusSquares = some F)
    (hne : F.Nonempty) :
    (detectChanges cd frame).1 =
      (detectChanges { cd with focusSquares := none } frame).1 ∩ F ∧
    (∀ s, s ∉ F → (detectChanges cd frame).2.gaussianModels s = cd.gaussianModels s) ∧
    (∀ s, s ∈ F →
      (detectChanges cd frame).2.gaussianModels s =
        (detectChanges { cd with focusSquares := none } frame).2.gaussianModels s) := by
  unfold detectChanges
  dsimp only
  rw [hcal, hfoc]
  dsimp only
  rw [if_neg (by simp), if_pos hne]
  refine ⟨?_, ?_, ?_⟩
  · refine filter_inter_of_imp _ _ _ ?_
    intro s hs
    unfold frameKeys
    simp only [Finset.mem_filter, Finset.mem_univ, true_and]
    revert hs
    cases hfs : frame s with
    | none => intro hs; exact absurd hs (by simp)
    | some x => intro _; simp
  · intro s hsF
    dsimp only
    rw [if_neg hsF]
  · intro s hsF
    dsimp only
    rw [if_pos hsF]
    rw [if_neg (show ¬(true = false) by simp)]
    dsimp only
    by_cases hmem : s ∈ frameKeys frame
    · rw [if_pos hmem]
    · rw [if_neg hmem]
      have hfn : frame s = none := by
        by_contra hcon
        apply hmem
        unfold frameKeys
        simp only [Finset.mem_filter, Finset.mem_univ, true_and]
        exact Option.isSome_iff_ne_none.mpr hcon
      rw [hfn]

/-- Witness for C6 (amended): the focused detector of the concrete scenario. -/
theorem c6_witness :
    focusedDetector.isCalibrated = true ∧
    focusedDetector.focusSquares = some {((0 : Fin 8), (0 : Fin 8))} ∧
    (detectChanges focusedDetector focusTestFrame).1 =
      (detectChanges { focusedDetector with focusSquares := none } focusTestFrame).1 ∩
        {((0 : Fin 8), (0 : Fin 8))} :=
  ⟨by decide, by decide,
    (c6_focus_semantics focusedDetector focusTestFrame {((0 : Fin 8), (0 : Fin 8))}
      (by decide) (by decide) (by decide)).1⟩


end ChessVision
namespace ChessVision

lemma mkSq_file_rank {x y : Int} {t : Sq} (h : mkSq x y = some t) :
    sqFile t = x ∧ sqRank t = y := by
  unfold mkSq at h
  split_ifs at h with hx hy
  cases h
  unfold sqFile sqRank
  constructor <;> simp <;> omega

lemma slideTargets_not_own {b : Board} {me : Color} {l : List Sq} {t : Sq}
    (h : t ∈ slideTargets b me l) : hasOwn b me t = false := by
  induction l with
  | nil => cases h
  | cons x xs ih =>
    unfold slideTargets at h
    revert h
    cases hx : b.placement x with
    | none =>
      intro h
      rcases List.mem_cons.mp h with rfl | h2
      · unfold hasOwn
        rw [hx]
      · exact ih h2
    | some q =>
      intro h
      dsimp only at h
      split_ifs at h with hq
      · cases h
      · rcases List.mem_cons.mp h with rfl | h2
        · unfold hasOwn
          rw [hx]
          simpa using hq
        · cases h2

lemma promoteTo_mem {c : Color} {s t : Sq} {m : Move} (h : m ∈ promoteTo c s t) :
    m.fromSq = s ∧ m.toSq = t ∧
      (sqRank t = pawnLastRank c → m.promotion ≠ none) ∧
      (sqRank t ≠ pawnLastRank c → m.promotion = none) := by
  unfold promoteTo at h
  split_ifs at h with hl
  · simp only [List.mem_map] at h
    obtain ⟨pt, hpt, rfl⟩ := h
    exact ⟨rfl, rfl, fun _ => by simp, fun hn => absurd hl hn⟩
  · rcases List.mem_cons.mp h with rfl | h2
    · exact ⟨rfl, rfl, fun hl2 => absurd hl2 hl, fun _ => rfl⟩
    · cases h2

/-- Decomposition of pawn-move membership into the four generation shapes. -/
lemma pawnMoves_mem {b : Board} {c : Color} {s : Sq} {m : Move}
    (h : m ∈ pawnMoves b c s) :
    (∃ t1, mkSq (sqFile s) (sqRank s + pawnDir c) = some t1 ∧ isEmptySq b t1 = true ∧
      m ∈ promoteTo c s t1) ∨
    (∃ t1 t2, mkSq (sqFile s) (sqRank s + pawnDir c) = some t1 ∧ isEmptySq b t1 = true ∧
      sqRank s = pawnStartRank c ∧
      mkSq (sqFile s) (sqRank s + 2 * pawnDir c) = some t2 ∧ isEmptySq b t2 = true ∧
      m = ⟨s, t2, none⟩) ∨
    (∃ dx t, (dx = -1 ∨ dx = 1) ∧ mkSq (sqFile s + dx) (sqRank s + pawnDir c) = some t ∧
      hasEnemy b c t = true ∧ m ∈ promoteTo c s t) ∨
    (∃ dx t, (dx = -1 ∨ dx = 1) ∧ mkSq (sqFile s + dx) (sqRank s + pawnDir c) = some t ∧
      hasEnemy b c t = false ∧ b.epSquare = some t ∧ isEmptySq b t = true ∧
      m = ⟨s, t, none⟩) := by
  unfold pawnMoves at h
  rw [List.mem_append] at h
  rcases h with h | h
  · -- pushes
    revert h
    cases h1 : mkSq (sqFile s) (sqRank s + pawnDir c) with
    | none => intro h; cases h
    | some t1 =>
      intro h
      dsimp only at h
      by_cases he : isEmptySq b t1
      · rw [if_pos he, List.mem_append] at h
        rcases h with h | h
        · exact Or.inl ⟨t1, rfl, he, h⟩
        · by_cases hs : sqRank s = pawnStartRank c
          · rw [if_pos hs] at h
            revert h
            cases h2 : mkSq (sqFile s) (sqRank s + 2 * pawnDir c) with
            | none => intro h; cases h
            | some t2 =>
              intro h
              dsimp only at h
              by_cases he2 : isEmptySq b t2
              · rw [if_pos he2] at h
                rcases List.mem_cons.mp h with rfl | h3
                · exact Or.inr (Or.inl ⟨t1, t2, rfl, he, hs, rfl, he2, rfl⟩)
                · cases h3
              · rw [if_neg he2] at h
                cases h
          · rw [if_neg hs] at h
            cases h
      · rw [if_neg he] at h
        cases h
  · -- caps
    rw [List.mem_flatMap] at h
    obtain ⟨dx, hdx, h⟩ := h
    have hdx2 : dx = -1 ∨ dx = 1 := by
      rcases List.mem_cons.mp hdx with rfl | h2
      · exact Or.inl rfl
      · rcases List.mem_cons.mp h2 with rfl | h3
        · exact Or.inr rfl
        · cases h3
    revert h
    cases h1 : mkSq (sqFile s + dx) (sqRank s + pawnDir c) with
    | none => intro h; cases h
    | some t =>
      intro h
      dsimp only at h
      split_ifs at h with hen hep
      · exact Or.inr (Or.inr (Or.inl ⟨dx, t, hdx2, h1, hen, h⟩))
      · rcases List.mem_cons.mp h with rfl | h3
        · exact Or.inr (Or.inr (Or.inr ⟨dx, t, hdx2, h1, by simpa using hen, hep.1, hep.2, rfl⟩))
        · cases h3
      · cases h

end ChessVision
namespace ChessVision

lemma mkSq_of_fin (f r : Fin 8) : mkSq (f : Int) (r : Int) = some (f, r) := by
  unfold mkSq
  rw [dif_pos (by constructor <;> omega), dif_pos (by constructor <;> omega)]
  apply congrArg
  apply Prod.ext <;> apply Fin.ext <;> simp

lemma stepTargets_mem {b : Board} {cl : Color} {s : Sq} {m : Move}
    {offs : List (Int × Int)}
    (h : m ∈ offs.filterMap fun d =>
      match mkSq (sqFile s + d.1) (sqRank s + d.2) with
      | some t => if hasOwn b cl t then none else some ⟨s, t, none⟩
      | none => none) :
    ∃ d ∈ offs, ∃ t, mkSq (sqFile s + d.1) (sqRank s + d.2) = some t ∧
      hasOwn b cl t = false ∧ m = ⟨s, t, none⟩ := by
  rw [List.mem_filterMap] at h
  obtain ⟨d, hd, hm⟩ := h
  refine ⟨d, hd, ?_⟩
  revert hm
  cases ht : mkSq (sqFile s + d.1) (sqRank s + d.2) with
  | none => intro hm; cases hm
  | some t =>
    intro hm
    dsimp only at hm
    split_ifs at hm with ho
    exact ⟨t, rfl, by simpa using ho, (Option.some.inj hm).symm⟩

lemma sliderTargets_mem {b : Board} {cl : Color} {s : Sq} {m : Move}
    {dirs : List (Int × Int)}
    (h : m ∈ dirs.flatMap fun d => (slideTargets b cl (ray s d)).map fun t => ⟨s, t, none⟩) :
    ∃ d ∈ dirs, ∃ t ∈ slideTargets b cl (ray s d), m = ⟨s, t, none⟩ := by
  rw [List.mem_flatMap] at h
  obtain ⟨d, hd, hm⟩ := h
  rw [List.mem_map] at hm
  obtain ⟨t, ht, rfl⟩ := hm
  exact ⟨d, hd, t, ht, rfl⟩

lemma castleMoves_basic {b : Board} {c : Color} {s : Sq} {m : Move}
    (h : m ∈ castleMoves b c s) :
    m.fromSq = s ∧ m.promotion = none ∧ isEmptySq b m.toSq = true := by
  unfold castleMoves at h
  by_cases hc : c = Color.white
  · subst hc
    simp only [reduceIte] at h
    rw [show mkSq 5 (0 : Int) = some ((5 : Fin 8), (0 : Fin 8)) from rfl,
      show mkSq 6 (0 : Int) = some ((6 : Fin 8), (0 : Fin 8)) from rfl,
      show mkSq 7 (0 : Int) = some ((7 : Fin 8), (0 : Fin 8)) from rfl,
      show mkSq 3 (0 : Int) = some ((3 : Fin 8), (0 : Fin 8)) from rfl,
      show mkSq 2 (0 : Int) = some ((2 : Fin 8), (0 : Fin 8)) from rfl,
      show mkSq 1 (0 : Int) = some ((1 : Fin 8), (0 : Fin 8)) from rfl,
      show mkSq 0 (0 : Int) = some ((0 : Fin 8), (0 : Fin 8)) from rfl] at h
    dsimp only at h
    split_ifs at h with hpos hK hQ hK2 hQ2
    all_goals
      first
        | (rcases List.mem_append.mp h with h2 | h2 <;>
            first
              | (obtain rfl := List.mem_singleton.mp h2
                 first
                   | exact ⟨rfl, rfl, hK.2.2.2.1⟩
                   | exact ⟨rfl, rfl, hK2.2.2.2.1⟩
                   | exact ⟨rfl, rfl, hQ.2.2.2.1⟩)
              | cases h2)
        | cases h
  · have hcb : c = Color.black := by
      cases c with
      | white => exact absurd rfl hc
      | black => rfl
    subst hcb
    rw [show (if Color.black = Color.white then (0 : Int) else 7) = (7 : Int) from rfl,
      show (if Color.black = Color.white then b.castleWK else b.castleBK) = b.castleBK from rfl,
      show (if Color.black = Color.white then b.castleWQ else b.castleBQ) = b.castleBQ from rfl] at h
    dsimp only at h
    rw [show mkSq 5 (7 : Int) = some ((5 : Fin 8), (7 : Fin 8)) from rfl,
      show mkSq 6 (7 : Int) = some ((6 : Fin 8), (7 : Fin 8)) from rfl,
      show mkSq 7 (7 : Int) = some ((7 : Fin 8), (7 : Fin 8)) from rfl,
      show mkSq 3 (7 : Int) = some ((3 : Fin 8), (7 : Fin 8)) from rfl,
      show mkSq 2 (7 : Int) = some ((2 : Fin 8), (7 : Fin 8)) from rfl,
      show mkSq 1 (7 : Int) = some ((1 : Fin 8), (7 : Fin 8)) from rfl,
      show mkSq 0 (7 : Int) = some ((0 : Fin 8), (7 : Fin 8)) from rfl] at h
    dsimp only at h
    split_ifs at h with hpos hK hQ hK2 hQ2
    all_goals
      first
        | (rcases List.mem_append.mp h with h2 | h2 <;>
            first
              | (obtain rfl := List.mem_singleton.mp h2
                 first
                   | exact ⟨rfl, rfl, hK.2.2.2.1⟩
                   | exact ⟨rfl, rfl, hK2.2.2.2.1⟩
                   | exact ⟨rfl, rfl, hQ.2.2.2.1⟩)
              | cases h2)
        | cases h

end ChessVision
namespace ChessVision

lemma hasOwn_of_empty {b : Board} {c : Color} {t : Sq} (h : isEmptySq b t = true) :
    hasOwn b c t = false := by
  unfold isEmptySq at h
  unfold hasOwn
  cases hp : b.placement t with
  | none => rfl
  | some q => rw [hp] at h; cases h

lemma hasOwn_of_enemy {b : Board} {c : Color} {t : Sq} (h : hasEnemy b c t = true) :
    hasOwn b c t = false := by
  unfold hasEnemy at h
  unfold hasOwn
  cases hp : b.placement t with
  | none => rfl
  | some q =>
    rw [hp] at h
    simp only [decide_eq_true_eq] at h ⊢
    simpa using h

lemma movesFromSquare_mem {b : Board} {s : Sq} {m : Move} (h : m ∈ movesFromSquare b s) :
    ∃ p, b.placement s = some p ∧ p.color = b.turn ∧ m.fromSq = s := by
  unfold movesFromSquare at h
  revert h
  cases hp : b.placement s with
  | none => exact fun h => absurd h (List.not_mem_nil m)
  | some p =>
    intro h
    dsimp only at h
    split_ifs at h with hcol
    · cases h
    · refine ⟨p, rfl, by simpa using hcol, ?_⟩
      revert h
      cases hpt : p.ptype <;> intro h <;> dsimp only at h
      · rcases pawnMoves_mem h with ⟨t1, _, _, hpm⟩ | ⟨t1, t2, _, _, _, _, _, rfl⟩ |
          ⟨dx, t, _, _, _, hpm⟩ | ⟨dx, t, _, _, _, _, _, rfl⟩
        · exact (promoteTo_mem hpm).1
        · rfl
        · exact (promoteTo_mem hpm).1
        · rfl
      · obtain ⟨d, _, t, _, _, rfl⟩ := stepTargets_mem h
        rfl
      · obtain ⟨d, _, t, _, rfl⟩ := sliderTargets_mem h
        rfl
      · obtain ⟨d, _, t, _, rfl⟩ := sliderTargets_mem h
        rfl
      · obtain ⟨d, _, t, _, rfl⟩ := sliderTargets_mem h
        rfl
      · rcases List.mem_append.mp h with h2 | h2
        · obtain ⟨d, _, t, _, _, rfl⟩ := stepTargets_mem h2
          rfl
        · exact (castleMoves_basic h2).1

lemma movesFromSquare_not_own {b : Board} {s : Sq} {m : Move}
    (h : m ∈ movesFromSquare b s) : hasOwn b b.turn m.toSq = false := by
  unfold movesFromSquare at h
  revert h
  cases hp : b.placement s with
  | none => exact fun h => absurd h (List.not_mem_nil m)
  | some p =>
    intro h
    dsimp only at h
    split_ifs at h with hcol
    · cases h
    · have hpc : p.color = b.turn := by simpa using hcol
      rw [← hpc]
      revert h
      cases hpt : p.ptype <;> intro h <;> dsimp only at h
      · rcases pawnMoves_mem h with ⟨t1, _, he, hpm⟩ | ⟨t1, t2, _, _, _, _, he, rfl⟩ |
          ⟨dx, t, _, _, hen, hpm⟩ | ⟨dx, t, _, _, _, _, he, rfl⟩
        · rw [(promoteTo_mem hpm).2.1]
          exact hasOwn_of_empty he
        · exact hasOwn_of_empty he
        · rw [(promoteTo_mem hpm).2.1]
          exact hasOwn_of_enemy hen
        · exact hasOwn_of_empty he
      · obtain ⟨d, _, t, _, ho, rfl⟩ := stepTargets_mem h
        exact ho
      · obtain ⟨d, _, t, ht, rfl⟩ := sliderTargets_mem h
        exact slideTargets_not_own ht
      · obtain ⟨d, _, t, ht, rfl⟩ := sliderTargets_mem h
        exact slideTargets_not_own ht
      · obtain ⟨d, _, t, ht, rfl⟩ := sliderTargets_mem h
        exact slideTargets_not_own ht
      · rcases List.mem_append.mp h with h2 | h2
        · obtain ⟨d, _, t, _, ho, rfl⟩ := stepTargets_mem h2
          exact ho
        · exact hasOwn_of_empty (castleMoves_basic h2).2.2

lemma legalMoves_from {b : Board} {m : Move} (h : m ∈ legalMoves b) :
    m ∈ movesFromSquare b m.fromSq := by
  unfold legalMoves at h
  have h2 : m ∈ pseudoMoves b := (List.mem_filter.mp h).1
  unfold pseudoMoves at h2
  rw [List.mem_flatMap] at h2
  obtain ⟨s, _, hs⟩ := h2
  obtain ⟨p, _, _, rfl⟩ := movesFromSquare_mem hs
  exact hs

lemma king_two_step_empty {b : Board} {s : Sq} {p : Piece} {m : Move}
    (hp : b.placement s = some p) (hk : p.ptype = PieceType.king)
    (h : m ∈ movesFromSquare b s)
    (hd : sqFile m.toSq - sqFile s = 2 ∨ sqFile s - sqFile m.toSq = 2) :
    isEmptySq b m.toSq = true := by
  unfold movesFromSquare at h
  rw [hp] at h
  dsimp only at h
  split_ifs at h with hcol
  · cases h
  · rw [hk] at h
    dsimp only at h
    rcases List.mem_append.mp h with h2 | h2
    · obtain ⟨d, hd8, t, hmk, _, rfl⟩ := stepTargets_mem h2
      obtain ⟨hft, _⟩ := mkSq_file_rank hmk
      exfalso
      dsimp only at hd hft
      unfold kingOffsets at hd8
      rcases List.mem_cons.mp hd8 with rfl | hd8 <;>
        [skip; rcases List.mem_cons.mp hd8 with rfl | hd8] <;>
        [skip; skip; rcases List.mem_cons.mp hd8 with rfl | hd8] <;>
        [skip; skip; skip; rcases List.mem_cons.mp hd8 with rfl | hd8] <;>
        [skip; skip; skip; skip; rcases List.mem_cons.mp hd8 with rfl | hd8] <;>
        [skip; skip; skip; skip; skip; rcases List.mem_cons.mp hd8 with rfl | hd8] <;>
        [skip; skip; skip; skip; skip; skip; rcases List.mem_cons.mp hd8 with rfl | hd8] <;>
        [skip; skip; skip; skip; skip; skip; skip;
          rcases List.mem_cons.mp hd8 with rfl | hd8] <;>
        first
          | omega
          | cases hd8
    · exact (castleMoves_basic h2).2.2

end ChessVision
namespace ChessVision

lemma mem_of_sdiff_singleton {A B : Finset Sq} {x : Sq} (h : A \ B = {x}) :
    x ∈ A ∧ x ∉ B := by
  have hx := Finset.ext_iff.mp h x
  simp only [Finset.mem_sdiff, Finset.mem_singleton] at hx
  exact hx.mpr trivial

lemma eq_insert_erase_of_sdiffs {A B : Finset Sq} {x y : Sq}
    (h1 : A \ B = {x}) (h2 : B \ A = {y}) : B = insert y (A.erase x) := by
  obtain ⟨hxA, hxB⟩ := mem_of_sdiff_singleton h1
  obtain ⟨hyB, hyA⟩ := mem_of_sdiff_singleton h2
  ext s
  have e1 := Finset.ext_iff.mp h1 s
  have e2 := Finset.ext_iff.mp h2 s
  simp only [Finset.mem_sdiff, Finset.mem_singleton] at e1 e2
  simp only [Finset.mem_insert, Finset.mem_erase]
  constructor
  · intro hsB
    by_cases hsA : s ∈ A
    · right
      refine ⟨fun hsx => hxB (hsx ▸ hsB), hsA⟩
    · left
      exact e2.mp ⟨hsB, hsA⟩
  · rintro (rfl | ⟨hsx, hsA⟩)
    · exact hyB
    · by_contra hsB
      exact hsx (e1.mp ⟨hsA, hsB⟩)

lemma eq_erase_of_sdiff_singleton_empty {A B : Finset Sq} {x : Sq}
    (h1 : A \ B = {x}) (h2 : B \ A = ∅) : B = A.erase x := by
  obtain ⟨hxA, hxB⟩ := mem_of_sdiff_singleton h1
  have hsub : B ⊆ A := by
    intro s hs
    by_contra hsA
    have : s ∈ B \ A := Finset.mem_sdiff.mpr ⟨hs, hsA⟩
    rw [h2] at this
    cases this
  ext s
  have e1 := Finset.ext_iff.mp h1 s
  simp only [Finset.mem_sdiff, Finset.mem_singleton] at e1
  simp only [Finset.mem_erase]
  constructor
  · intro hsB
    exact ⟨fun hsx => hxB (hsx ▸ hsB), hsub hsB⟩
  · rintro ⟨hsx, hsA⟩
    by_contra hsB
    exact hsx (e1.mp ⟨hsA, hsB⟩)

lemma push_placement {b : Board} {m : Move} {p : Piece}
    (hp : b.placement m.fromSq = some p)
    (hep : isEnPassantMove b m = false) (hcs : isCastlingMove b m = false) :
    (b.push m).placement = fun s =>
      if s = m.fromSq then none
      else if s = m.toSq then
        some (match m.promotion with
          | some pt => ⟨p.color, pt⟩
          | none => p)
      else b.placement s := by
  have hcast : decide (p.ptype = PieceType.king ∧
      (sqFile m.toSq - sqFile m.fromSq = 2 ∨ sqFile m.fromSq - sqFile m.toSq = 2)) = false := by
    unfold isCastlingMove at hcs
    rw [hp] at hcs
    dsimp only at hcs
    rw [Bool.decide_and]
    exact hcs
  unfold Board.push
  rw [hp]
  dsimp only
  rw [hcast, hep]
  funext s
  simp only [Bool.false_eq_true, if_false, false_and]

end ChessVision
namespace ChessVision

lemma getBoardOccupancy_push_normal {b : Board} {m : Move} {p : Piece}
    (hp : b.placement m.fromSq = some p)
    (hep : isEnPassantMove b m = false) (hcs : isCastlingMove b m = false)
    (hne : m.fromSq ≠ m.toSq) :
    getBoardOccupancy (b.push m) =
      insert m.toSq ((getBoardOccupancy b).erase m.fromSq) := by
  have hpl := push_placement hp hep hcs
  unfold getBoardOccupancy
  rw [hpl]
  ext s
  simp only [Finset.mem_filter, Finset.mem_univ, true_and, Finset.mem_insert,
    Finset.mem_erase]
  by_cases hs1 : s = m.toSq
  · subst hs1
    rw [if_neg (fun hh => hne hh.symm), if_pos rfl]
    simp
  · by_cases hs2 : s = m.fromSq
    · subst hs2
      rw [if_pos rfl]
      simp only [Option.isSome_none, Bool.false_eq_true, false_iff]
      rintro (h1 | ⟨h2, -⟩)
      · exact hne h1
      · exact h2 rfl
    · rw [if_neg hs2, if_neg hs1]
      constructor
      · intro h1
        exact Or.inr ⟨hs2, h1⟩
      · rintro (rfl | ⟨_, h1⟩)
        · exact absurd rfl hs1
        · exact h1

lemma isEnPassantMove_false_of_occupied {b : Board} {m : Move}
    (h : (b.placement m.toSq).isSome = true) : isEnPassantMove b m = false := by
  unfold isEnPassantMove isEmptySq
  cases hp : b.placement m.toSq with
  | none => rw [hp] at h; cases h
  | some q => simp

lemma isCastlingMove_false_of_occupied {b : Board} {m : Move}
    (hleg : m ∈ legalMoves b) (h : (b.placement m.toSq).isSome = true) :
    isCastlingMove b m = false := by
  unfold isCastlingMove
  cases hp : b.placement m.fromSq with
  | none => rfl
  | some p =>
    dsimp only
    by_cases hk : p.ptype = PieceType.king
    · by_cases hd : (sqFile m.toSq - sqFile m.fromSq = 2 ∨ sqFile m.fromSq - sqFile m.toSq = 2)
      · exfalso
        have hemp := king_two_step_empty hp hk (legalMoves_from hleg) hd
        unfold isEmptySq at hemp
        rw [Option.isNone_iff_eq_none] at hemp
        rw [hemp] at h
        cases h
      · simp [hd]
    · simp [hk]

lemma setList_eq_singleton {A : Finset Sq} {x : Sq} {tl : List Sq}
    (hc : A.card = 1) (hl : setList A = x :: tl) : A = {x} ∧ tl = [] := by
  obtain ⟨a, rfl⟩ := Finset.card_eq_one.mp hc
  rw [setList_singleton] at hl
  injection hl with h1 h2
  subst h1
  exact ⟨rfl, h2.symm⟩

end ChessVision
namespace ChessVision

lemma validateMove_src_dst {b : Board} {src dst : Sq} {m : Move}
    (h : validateMove b src dst = some m) : m.fromSq = src ∧ m.toSq = dst := by
  unfold validateMove at h
  split_ifs at h with h1 h2 <;>
    [exact ⟨congrArg Move.fromSq (Option.some.inj h).symm,
      congrArg Move.toSq (Option.some.inj h).symm⟩;
     exact ⟨congrArg Move.fromSq (Option.some.inj h).symm,
      congrArg Move.toSq (Option.some.inj h).symm⟩]

lemma process_inv (b : Board) (grid : Finset Sq) :
    ((processOccupancyChange b grid).2.1 = Status.moveConfirmed →
      ∃ m, processOccupancyChange b grid = (some m, Status.moveConfirmed, b.push m) ∧
        m ∈ legalMoves b ∧ getBoardOccupancy b \ grid = {m.fromSq} ∧
        grid \ getBoardOccupancy b = {m.toSq}) ∧
    ((processOccupancyChange b grid).2.1 = Status.captureConfirmed →
      ∃ m, processOccupancyChange b grid = (some m, Status.captureConfirmed, b.push m) ∧
        m ∈ detectCaptureCandidates b m.fromSq grid ∧
        getBoardOccupancy b \ grid = {m.fromSq} ∧ grid \ getBoardOccupancy b = ∅) := by
  unfold processOccupancyChange
  dsimp only
  split_ifs with hA hB hC hD
  · cases h1 : setList (getBoardOccupancy b \ grid) with
    | nil => exact ⟨fun h => Status.noConfusion h, fun h => Status.noConfusion h⟩
    | cons src tl =>
      cases h2 : setList (grid \ getBoardOccupancy b) with
      | nil => exact ⟨fun h => Status.noConfusion h, fun h => Status.noConfusion h⟩
      | cons dst tl2 =>
        dsimp only
        cases h3 : validateMove b src dst with
        | none => exact ⟨fun h => Status.noConfusion h, fun h => Status.noConfusion h⟩
        | some mv =>
          refine ⟨fun _ => ⟨mv, rfl, validateMove_mem h3, ?_, ?_⟩,
            fun h => Status.noConfusion h⟩
          · rw [(validateMove_src_dst h3).1]
            exact (setList_eq_singleton hA.1 h1).1
          · rw [(validateMove_src_dst h3).2]
            exact (setList_eq_singleton hA.2 h2).1
  · cases h1 : detectCastling b (getBoardOccupancy b \ grid) (grid \ getBoardOccupancy b) with
    | none => exact ⟨fun h => Status.noConfusion h, fun h => Status.noConfusion h⟩
    | some mv => exact ⟨fun h => Status.noConfusion h, fun h => Status.noConfusion h⟩
  · cases h1 : detectEnPassant b (getBoardOccupancy b \ grid) (grid \ getBoardOccupancy b) with
    | none => exact ⟨fun h => Status.noConfusion h, fun h => Status.noConfusion h⟩
    | some mv => exact ⟨fun h => Status.noConfusion h, fun h => Status.noConfusion h⟩
  · cases h1 : setList (getBoardOccupancy b \ grid) with
    | nil => exact ⟨fun h => Status.noConfusion h, fun h => Status.noConfusion h⟩
    | cons src tl =>
      dsimp only
      cases h4 : detectCapture b src grid with
      | found mv =>
        refine ⟨fun h => Status.noConfusion h, fun _ => ⟨mv, rfl, ?_, ?_, ?_⟩⟩
        · unfold detectCapture at h4
          revert h4
          cases hc : detectCaptureCandidates b src grid with
          | nil => intro h4; cases h4
          | cons c rest =>
            cases rest with
            | nil =>
              intro h4
              have hcm : c = mv := by cases h4; rfl
              subst hcm
              have hmem : c ∈ detectCaptureCandidates b src grid := by
                rw [hc]
                exact List.mem_cons_self c []
              have hsrc : c.fromSq = src := by
                have := (List.mem_filter.mp hmem).2
                simp only [decide_eq_true_eq] at this
                exact this.1
              rw [hsrc]
              exact hmem
            | cons c2 r2 => intro h4; cases h4
        · have hsrc : mv.fromSq = src := by
            unfold detectCapture at h4
            revert h4
            cases hc : detectCaptureCandidates b src grid with
            | nil => intro h4; cases h4
            | cons c rest =>
              cases rest with
              | nil =>
                intro h4
                have hcm : c = mv := by cases h4; rfl
                subst hcm
                have hmem : c ∈ detectCaptureCandidates b src grid := by
                  rw [hc]
                  exact List.mem_cons_self c []
                have := (List.mem_filter.mp hmem).2
                simp only [decide_eq_true_eq] at this
                exact this.1
              | cons c2 r2 => intro h4; cases h4
          rw [hsrc]
          exact (setList_eq_singleton hD.1 h1).1
        · exact Finset.card_eq_zero.mp hD.2
      | ambiguous => exact ⟨fun h => Status.noConfusion h, fun h => Status.noConfusion h⟩
      | noCapture => exact ⟨fun h => Status.noConfusion h, fun h => Status.noConfusion h⟩
  · exact ⟨fun h => h.elim, fun h => h.elim⟩

end ChessVision
namespace ChessVision

/-- C7 (amended): the occupancy round-trip holds for the paths the code
actually closes. After a `capture_confirmed` commit, `get_board_occupancy`
of the new board always equals the snapshot that triggered it; after a
`move_confirmed` commit whose pushed move is neither an en-passant capture
nor a castling move, it likewise equals the snapshot. (The original claim —
the round-trip for every confirmed status — fails: see the counterexample,
where the simple-move path commits an en-passant capture whose captured
pawn stays on the recomputed occupancy but not on the snapshot.) -/
theorem c7_roundtrip_amended (b : Board) (grid : Finset Sq) :
    ((processOccupancyChange b grid).2.1 = Status.captureConfirmed →
      getBoardOccupancy (processOccupancyChange b grid).2.2 = grid) ∧
    ((processOccupancyChange b grid).2.1 = Status.moveConfirmed →
      ∀ m, (processOccupancyChange b grid).1 = some m →
      isEnPassantMove b m = false → isCastlingMove b m = false →
      getBoardOccupancy (processOccupancyChange b grid).2.2 = grid) := by
  constructor
  · intro h
    obtain ⟨m, hpq, hcand, hv, ha⟩ := (process_inv b grid).2 h
    rw [hpq]
    dsimp only
    have hfilter := List.mem_filter.mp hcand
    have hleg : m ∈ legalMoves b := hfilter.1
    have hfacts := hfilter.2
    simp only [decide_eq_true_eq] at hfacts
    obtain ⟨-, hcapt, htg⟩ := hfacts
    have hgrid : grid = (getBoardOccupancy b).erase m.fromSq :=
      eq_erase_of_sdiff_singleton_empty hv ha
    have hdst : (b.placement m.toSq).isSome = true := by
      have hmem : m.toSq ∈ getBoardOccupancy b := by
        rw [hgrid] at htg
        exact Finset.mem_of_mem_erase htg
      unfold getBoardOccupancy at hmem
      simpa using (Finset.mem_filter.mp hmem).2
    have hep := isEnPassantMove_false_of_occupied hdst
    have hcs := isCastlingMove_false_of_occupied hleg hdst
    have hsrc : (b.placement m.fromSq).isSome = true := by
      have hmem := (mem_of_sdiff_singleton hv).1
      unfold getBoardOccupancy at hmem
      simpa using (Finset.mem_filter.mp hmem).2
    obtain ⟨p, hp⟩ := Option.isSome_iff_exists.mp hsrc
    have hne : m.fromSq ≠ m.toSq := by
      intro hEq
      have h1 := (mem_of_sdiff_singleton hv).2
      rw [hEq] at h1
      exact h1 htg
    rw [getBoardOccupancy_push_normal hp hep hcs hne, hgrid]
    apply Finset.insert_eq_self.mpr
    rw [hgrid] at htg
    exact htg
  · intro h m hm hep hcs
    obtain ⟨m2, hpq, hleg, hv, ha⟩ := (process_inv b grid).1 h
    have hm2 : m2 = m := by
      rw [hpq] at hm
      exact Option.some.inj hm
    subst hm2
    rw [hpq]
    dsimp only
    have hsrc : (b.placement m2.fromSq).isSome = true := by
      have hmem := (mem_of_sdiff_singleton hv).1
      unfold getBoardOccupancy at hmem
      simpa using (Finset.mem_filter.mp hmem).2
    obtain ⟨p, hp⟩ := Option.isSome_iff_exists.mp hsrc
    have hne : m2.fromSq ≠ m2.toSq := by
      intro hEq
      have h1 := (mem_of_sdiff_singleton hv).2
      have h2 := (mem_of_sdiff_singleton ha).1
      rw [hEq] at h1
      exact h1 h2
    rw [getBoardOccupancy_push_normal hp hep hcs hne]
    exact (eq_insert_erase_of_sdiffs hv ha).symm

/-- C7 counterexample: after 1.e4 a6 2.e5 d5, the snapshot produced by
white's en-passant capture exd6 through the case-A (one vanished, one
appeared) branch is classified `move_confirmed` and committed, yet
recomputing the occupancy afterwards does not reproduce the snapshot:
the captured d5 pawn was removed from the board but the snapshot never
showed d5 vacated. -/
theorem c7_counterexample :
    (processOccupancyChange epBoard epCaseAGrid).2.1 = Status.moveConfirmed ∧
    (processOccupancyChange epBoard epCaseAGrid).1 = some exd6 ∧
    isEnPassantMove epBoard exd6 = true ∧
    getBoardOccupancy (processOccupancyChange epBoard epCaseAGrid).2.2 ≠ epCaseAGrid :=
  ⟨by decide, by decide, by decide, by decide⟩

/-- C7 witness: after 1.e4 d5, removing the e4 pawn from the snapshot
triggers the unique-capture path (exd5, `capture_confirmed`), and the
amended round-trip equation holds at this concrete input. -/
theorem c7_witness :
    (processOccupancyChange pawnCaptureBoard
        (getBoardOccupancy pawnCaptureBoard \ {((4 : Fin 8), (3 : Fin 8))})).2.1 =
      Status.captureConfirmed ∧
    getBoardOccupancy (processOccupancyChange pawnCaptureBoard
        (getBoardOccupancy pawnCaptureBoard \ {((4 : Fin 8), (3 : Fin 8))})).2.2 =
      getBoardOccupancy pawnCaptureBoard \ {((4 : Fin 8), (3 : Fin 8))} :=
  ⟨by decide, (c7_roundtrip_amended _ _).1 (by decide)⟩

end ChessVision
namespace ChessVision

lemma van_normal {A : Finset Sq} {f t : Sq} (hf : f ∈ A) (ht : t ∉ A) :
    A \ insert t (A.erase f) = {f} := by
  ext x
  simp only [Finset.mem_sdiff, Finset.mem_insert, Finset.mem_erase, Finset.mem_singleton]
  constructor
  · rintro ⟨hxA, hno⟩
    by_contra hxf
    exact hno (Or.inr ⟨hxf, hxA⟩)
  · rintro rfl
    refine ⟨hf, ?_⟩
    rintro (rfl | ⟨hff, -⟩)
    · exact ht hf
    · exact hff rfl

lemma app_normal {A : Finset Sq} {f t : Sq} (hf : f ∈ A) (ht : t ∉ A) :
    insert t (A.erase f) \ A = {t} := by
  ext x
  simp only [Finset.mem_sdiff, Finset.mem_insert, Finset.mem_erase, Finset.mem_singleton]
  constructor
  · rintro ⟨rfl | ⟨-, hxA⟩, hnx⟩
    · rfl
    · exact absurd hxA hnx
  · rintro rfl
    exact ⟨Or.inl rfl, ht⟩

lemma van_cap {A : Finset Sq} {f : Sq} (hf : f ∈ A) : A \ A.erase f = {f} := by
  ext x
  simp only [Finset.mem_sdiff, Finset.mem_erase, Finset.mem_singleton]
  constructor
  · rintro ⟨hxA, hno⟩
    by_contra hxf
    exact hno ⟨hxf, hxA⟩
  · rintro rfl
    exact ⟨hf, fun h => h.1 rfl⟩

lemma app_cap {A : Finset Sq} {f : Sq} : A.erase f \ A = ∅ := by
  ext x
  simp only [Finset.mem_sdiff, Finset.mem_erase, Finset.not_mem_empty, iff_false, not_and]
  exact fun h hn => absurd h.2 hn

lemma van_ep {A : Finset Sq} {f v t : Sq} (hf : f ∈ A) (hv : v ∈ A) (ht : t ∉ A) :
    A \ insert t ((A.erase f).erase v) = {f, v} := by
  ext x
  simp only [Finset.mem_sdiff, Finset.mem_insert, Finset.mem_erase, Finset.mem_singleton]
  constructor
  · rintro ⟨hxA, hno⟩
    by_cases hxf : x = f
    · exact Or.inl hxf
    · by_cases hxv : x = v
      · exact Or.inr hxv
      · exact absurd (Or.inr ⟨hxv, hxf, hxA⟩) hno
  · rintro (rfl | rfl)
    · refine ⟨hf, ?_⟩
      rintro (rfl | ⟨-, hff, -⟩)
      · exact ht hf
      · exact hff rfl
    · refine ⟨hv, ?_⟩
      rintro (rfl | ⟨hvv, -⟩)
      · exact ht hv
      · exact hvv rfl

lemma app_ep {A : Finset Sq} {f v t : Sq} (ht : t ∉ A) :
    insert t ((A.erase f).erase v) \ A = {t} := by
  ext x
  simp only [Finset.mem_sdiff, Finset.mem_insert, Finset.mem_erase, Finset.mem_singleton]
  constructor
  · rintro ⟨rfl | ⟨-, -, hxA⟩, hnx⟩
    · rfl
    · exact absurd hxA hnx
  · rintro rfl
    exact ⟨Or.inl rfl, ht⟩

lemma van_castle {A : Finset Sq} {kf rf kt rt : Sq} (h1 : kf ∈ A) (h2 : rf ∈ A)
    (h3 : kt ∉ A) (h4 : rt ∉ A) :
    A \ insert kt (insert rt ((A.erase kf).erase rf)) = {kf, rf} := by
  ext x
  simp only [Finset.mem_sdiff, Finset.mem_insert, Finset.mem_erase, Finset.mem_singleton]
  constructor
  · rintro ⟨hxA, hno⟩
    by_cases hxk : x = kf
    · exact Or.inl hxk
    · by_cases hxr : x = rf
      · exact Or.inr hxr
      · exact absurd (Or.inr (Or.inr ⟨hxr, hxk, hxA⟩)) hno
  · rintro (rfl | rfl)
    · refine ⟨h1, ?_⟩
      rintro (rfl | rfl | ⟨-, hkk, -⟩)
      · exact h3 h1
      · exact h4 h1
      · exact hkk rfl
    · refine ⟨h2, ?_⟩
      rintro (rfl | rfl | ⟨hrr, -⟩)
      · exact h3 h2
      · exact h4 h2
      · exact hrr rfl

lemma app_castle {A : Finset Sq} {kf rf kt rt : Sq} (h3 : kt ∉ A) (h4 : rt ∉ A) :
    insert kt (insert rt ((A.erase kf).erase rf)) \ A = {kt, rt} := by
  ext x
  simp only [Finset.mem_sdiff, Finset.mem_insert, Finset.mem_erase, Finset.mem_singleton]
  constructor
  · rintro ⟨rfl | rfl | ⟨-, -, hxA⟩, hnx⟩
    · exact Or.inl rfl
    · exact Or.inr rfl
    · exact absurd hxA hnx
  · rintro (rfl | rfl)
    · exact ⟨Or.inl rfl, h3⟩
    · exact ⟨Or.inr (Or.inl rfl), h4⟩

lemma setList_nodup (A : Finset Sq) : (setList A).Nodup :=
  allSquares_nodup.filter _

lemma nodup_mem_pair_eq {l : List Sq} {x y : Sq} (hn : l.Nodup) (hxy : x ≠ y)
    (hmem : ∀ s, s ∈ l ↔ s = x ∨ s = y) : l = [x, y] ∨ l = [y, x] := by
  match l with
  | [] =>
    exact absurd ((hmem x).mpr (Or.inl rfl)) (List.not_mem_nil x)
  | [a] =>
    exfalso
    have hx := (hmem x).mpr (Or.inl rfl)
    have hy := (hmem y).mpr (Or.inr rfl)
    rw [List.mem_singleton] at hx hy
    exact hxy (hx.trans hy.symm)
  | a :: b :: l3 =>
    have hab : a ≠ b := by
      intro h
      subst h
      exact (List.nodup_cons.mp hn).1 (List.mem_cons_self a l3)
    have hnil : l3 = [] := by
      rw [List.eq_nil_iff_forall_not_mem]
      intro c hc
      have hcl : c ∈ a :: b :: l3 := List.mem_cons_of_mem a (List.mem_cons_of_mem b hc)
      have ha : a ∈ a :: b :: l3 := List.mem_cons_self a (b :: l3)
      have hb : b ∈ a :: b :: l3 := List.mem_cons_of_mem a (List.mem_cons_self b l3)
      have hc2 : c = a ∨ c = b := by
        rcases (hmem a).mp ha with ha2 | ha2 <;> rcases (hmem b).mp hb with hb2 | hb2
        · exact absurd (ha2.trans hb2.symm) hab
        · rcases (hmem c).mp hcl with hc3 | hc3
          · exact Or.inl (hc3.trans ha2.symm)
          · exact Or.inr (hc3.trans hb2.symm)
        · rcases (hmem c).mp hcl with hc3 | hc3
          · exact Or.inr (hc3.trans hb2.symm)
          · exact Or.inl (hc3.trans ha2.symm)
        · exact absurd (ha2.trans hb2.symm) hab
      rcases hc2 with rfl | rfl
      · exact (List.nodup_cons.mp hn).1 (List.mem_cons_of_mem b hc)
      · exact (List.nodup_cons.mp (List.nodup_cons.mp hn).2).1 hc
    subst hnil
    have ha := (hmem a).mp (List.mem_cons_self a [b])
    have hb := (hmem b).mp (List.mem_cons_of_mem a (List.mem_cons_self b []))
    rcases ha with rfl | rfl
    · rcases hb with rfl | rfl
      · exact absurd rfl hab
      · exact Or.inl rfl
    · rcases hb with rfl | rfl
      · exact Or.inr rfl
      · exact absurd rfl hab

lemma setList_pair {x y : Sq} (hxy : x ≠ y) :
    setList {x, y} = [x, y] ∨ setList {x, y} = [y, x] := by
  apply nodup_mem_pair_eq (setList_nodup _) hxy
  intro s
  rw [mem_setList]
  simp

lemma eq_singleton_of_nodup_all_eq {l : List Move} {m : Move} (hn : l.Nodup)
    (hm : m ∈ l) (hall : ∀ x ∈ l, x = m) : l = [m] := by
  match l with
  | [] => exact absurd hm (List.not_mem_nil m)
  | a :: l2 =>
    obtain rfl := hall a (List.mem_cons_self a l2)
    have h2 : l2 = [] := by
      rw [List.eq_nil_iff_forall_not_mem]
      intro c hc
      obtain rfl := hall c (List.mem_cons_of_mem a hc)
      exact (List.nodup_cons.mp hn).1 hc
    rw [h2]

lemma nodup_flatMap_of {α β : Type} {l : List α} {f : α → List β} (hl : l.Nodup)
    (hf : ∀ a ∈ l, (f a).Nodup)
    (hdisj : ∀ a ∈ l, ∀ a2 ∈ l, ∀ x, x ∈ f a → x ∈ f a2 → a = a2) :
    (l.flatMap f).Nodup := by
  induction l with
  | nil => exact List.nodup_nil
  | cons a l2 ih =>
    rw [List.flatMap_cons, List.nodup_append]
    refine ⟨hf a (List.mem_cons_self a l2),
      ih (List.nodup_cons.mp hl).2
        (fun a3 h3 => hf a3 (List.mem_cons_of_mem a h3))
        (fun a3 h3 a4 h4 => hdisj a3 (List.mem_cons_of_mem a h3) a4
          (List.mem_cons_of_mem a h4)), ?_⟩
    intro x hx hx2
    rw [List.mem_flatMap] at hx2
    obtain ⟨a3, h3, hx3⟩ := hx2
    have heq : a = a3 := hdisj a (List.mem_cons_self a l2) a3
      (List.mem_cons_of_mem a h3) x hx hx3
    exact (List.nodup_cons.mp hl).1 (heq ▸ h3)

end ChessVision
namespace ChessVision

lemma promoteTo_nodup (c : Color) (s t : Sq) : (promoteTo c s t).Nodup := by
  unfold promoteTo
  split_ifs
  · refine List.Nodup.map ?_ (by decide)
    intro p1 p2 h
    have := congrArg Move.promotion h
    simpa using this
  · exact List.nodup_singleton _

lemma ray_mem {s : Sq} {d : Int × Int} {t : Sq} (h : t ∈ ray s d) :
    ∃ n : Int, 1 ≤ n ∧ sqFile t = sqFile s + n * d.1 ∧ sqRank t = sqRank s + n * d.2 := by
  unfold ray at h
  rw [List.mem_filterMap] at h
  obtain ⟨k, hk0, hk⟩ := h
  have hall : ∀ x ∈ (List.range 7).flatMap fun a => ([((a : Nat) : Int)] : List Int),
      0 ≤ x := by decide
  have hk1 : (0 : Int) ≤ k := hall k hk0
  obtain ⟨hf, hr⟩ := mkSq_file_rank hk
  exact ⟨k + 1, by omega, hf, hr⟩

lemma ray_nodup {s : Sq} {d : Int × Int} (hd : ¬(d.1 = 0 ∧ d.2 = 0)) :
    (ray s d).Nodup := by
  unfold ray
  refine List.Nodup.filterMap ?_ (by decide)
  intro k1 k2 t h1 h2
  rw [Option.mem_def] at h1 h2
  obtain ⟨hf1, hr1⟩ := mkSq_file_rank h1
  obtain ⟨hf2, hr2⟩ := mkSq_file_rank h2
  rcases not_and_or.mp hd with h | h
  · have he : (k1 + 1) * d.1 = (k2 + 1) * d.1 := by linarith
    have h12 := mul_right_cancel₀ h he
    omega
  · have he : (k1 + 1) * d.2 = (k2 + 1) * d.2 := by linarith
    have h12 := mul_right_cancel₀ h he
    omega

lemma slideTargets_sublist (b : Board) (me : Color) (l : List Sq) :
    (slideTargets b me l).Sublist l := by
  induction l with
  | nil => exact List.Sublist.refl []
  | cons x xs ih =>
    unfold slideTargets
    cases b.placement x with
    | none => exact List.Sublist.cons₂ x ih
    | some q =>
      dsimp only
      split_ifs
      · exact List.nil_sublist _
      · exact List.singleton_sublist.mpr (List.mem_cons_self x xs)

lemma dir_ne_zero {d : Int × Int} (hd : d ∈ rookDirs ++ bishopDirs) :
    ¬(d.1 = 0 ∧ d.2 = 0) := by
  have hall : ∀ e ∈ rookDirs ++ bishopDirs, ¬(e.1 = 0 ∧ e.2 = 0) := by decide
  exact hall d hd

lemma dirs_eq_of_collide {d d2 : Int × Int} (hd : d ∈ rookDirs ++ bishopDirs)
    (hd2 : d2 ∈ rookDirs ++ bishopDirs) {n n2 : Int} (hn : 1 ≤ n) (hn2 : 1 ≤ n2)
    (h1 : n * d.1 = n2 * d2.1) (h2 : n * d.2 = n2 * d2.2) : d = d2 := by
  rw [show rookDirs ++ bishopDirs =
    [(1, 0), (-1, 0), (0, 1), (0, -1), (1, 1), (1, -1), (-1, 1), (-1, -1)] from rfl] at hd hd2
  fin_cases hd <;> fin_cases hd2 <;> first | rfl | (exfalso; omega)

lemma sliderMoves_nodup (b : Board) (c : Color) (s : Sq) {dirs : List (Int × Int)}
    (hnd : dirs.Nodup) (hsub : ∀ d ∈ dirs, d ∈ rookDirs ++ bishopDirs) :
    (dirs.flatMap fun d =>
      (slideTargets b c (ray s d)).map fun t => (⟨s, t, none⟩ : Move)).Nodup := by
  apply nodup_flatMap_of hnd
  · intro d hd
    refine List.Nodup.map ?_ ?_
    · intro t1 t2 h
      exact congrArg Move.toSq h
    · exact ((slideTargets_sublist b c (ray s d)).nodup (ray_nodup (dir_ne_zero (hsub d hd))))
  · intro d hd d2 hd2 m hm hm2
    rw [List.mem_map] at hm hm2
    obtain ⟨t, ht, rfl⟩ := hm
    obtain ⟨t2, ht2, he⟩ := hm2
    have htt : t2 = t := congrArg Move.toSq he
    subst htt
    have hr1 := ray_mem ((slideTargets_sublist b c (ray s d)).subset ht)
    have hr2 := ray_mem ((slideTargets_sublist b c (ray s d2)).subset ht2)
    obtain ⟨n, hn, hf1, hrk1⟩ := hr1
    obtain ⟨n2, hn2, hf2, hrk2⟩ := hr2
    exact dirs_eq_of_collide (hsub d hd) (hsub d2 hd2) hn hn2 (by linarith) (by linarith)

lemma stepMoves_nodup (b : Board) (c : Color) (s : Sq) {offs : List (Int × Int)}
    (hnd : offs.Nodup) :
    (offs.filterMap fun d =>
      match mkSq (sqFile s + d.1) (sqRank s + d.2) with
      | some t => if hasOwn b c t then none else some (⟨s, t, none⟩ : Move)
      | none => none).Nodup := by
  refine List.Nodup.filterMap ?_ hnd
  intro d1 d2 m h1 h2
  rw [Option.mem_def] at h1 h2
  revert h1
  cases hk1 : mkSq (sqFile s + d1.1) (sqRank s + d1.2) with
  | none => intro h1; cases h1
  | some t1 =>
    intro h1
    dsimp only at h1
    split_ifs at h1
    obtain rfl := (Option.some.inj h1).symm
    revert h2
    cases hk2 : mkSq (sqFile s + d2.1) (sqRank s + d2.2) with
    | none => intro h2; cases h2
    | some t2 =>
      intro h2
      dsimp only at h2
      split_ifs at h2
      have hmm := Option.some.inj h2
      have htt : t2 = t1 := congrArg Move.toSq hmm
      subst htt
      obtain ⟨ha1, hb1⟩ := mkSq_file_rank hk1
      obtain ⟨ha2, hb2⟩ := mkSq_file_rank hk2
      exact Prod.ext_iff.mpr ⟨by omega, by omega⟩

end ChessVision
namespace ChessVision

lemma pawnDir_cases (c : Color) : pawnDir c = 1 ∨ pawnDir c = -1 := by
  cases c <;> simp [pawnDir]

lemma capsBranch_file {b : Board} {c : Color} {s : Sq} {dx : Int} {m : Move}
    (hm : m ∈ (match mkSq (sqFile s + dx) (sqRank s + pawnDir c) with
      | some t =>
        if hasEnemy b c t then promoteTo c s t
        else if b.epSquare = some t ∧ isEmptySq b t then [(⟨s, t, none⟩ : Move)]
        else []
      | none => [])) :
    sqFile m.toSq = sqFile s + dx := by
  revert hm
  cases h3 : mkSq (sqFile s + dx) (sqRank s + pawnDir c) with
  | none => intro hm; cases hm
  | some t =>
    intro hm
    dsimp only at hm
    split_ifs at hm with h4 h5
    · rw [(promoteTo_mem hm).2.1]
      exact (mkSq_file_rank h3).1
    · obtain rfl := List.mem_singleton.mp hm
      exact (mkSq_file_rank h3).1
    · cases hm

lemma capsBranch_nodup (b : Board) (c : Color) (s : Sq) (dx : Int) :
    (match mkSq (sqFile s + dx) (sqRank s + pawnDir c) with
      | some t =>
        if hasEnemy b c t then promoteTo c s t
        else if b.epSquare = some t ∧ isEmptySq b t then [(⟨s, t, none⟩ : Move)]
        else []
      | none => ([] : List Move)).Nodup := by
  cases h3 : mkSq (sqFile s + dx) (sqRank s + pawnDir c) with
  | none => exact List.nodup_nil
  | some t =>
    dsimp only
    split_ifs
    · exact promoteTo_nodup c s t
    · exact List.nodup_singleton _
    · exact List.nodup_nil

lemma pushesBranch_file {b : Board} {c : Color} {s : Sq} {m : Move}
    (hm : m ∈ (match mkSq (sqFile s) (sqRank s + pawnDir c) with
      | some t1 =>
        if isEmptySq b t1 then
          promoteTo c s t1 ++
            (if sqRank s = pawnStartRank c then
              match mkSq (sqFile s) (sqRank s + 2 * pawnDir c) with
              | some t2 => if isEmptySq b t2 then [(⟨s, t2, none⟩ : Move)] else []
              | none => []
            else [])
        else []
      | none => [])) :
    sqFile m.toSq = sqFile s := by
  revert hm
  cases h1 : mkSq (sqFile s) (sqRank s + pawnDir c) with
  | none => intro hm; cases hm
  | some t1 =>
    intro hm
    dsimp only at hm
    by_cases he1 : isEmptySq b t1
    · rw [if_pos he1] at hm
      rcases List.mem_append.mp hm with hx3 | hx3
      · rw [(promoteTo_mem hx3).2.1]
        exact (mkSq_file_rank h1).1
      · by_cases hs2 : sqRank s = pawnStartRank c
        · rw [if_pos hs2] at hx3
          revert hx3
          cases h2 : mkSq (sqFile s) (sqRank s + 2 * pawnDir c) with
          | none => intro hx3; cases hx3
          | some t2 =>
            intro hx3
            dsimp only at hx3
            split_ifs at hx3
            · obtain rfl := List.mem_singleton.mp hx3
              exact (mkSq_file_rank h2).1
            · cases hx3
        · rw [if_neg hs2] at hx3
          cases hx3
    · rw [if_neg he1] at hm
      cases hm

lemma pawnMoves_nodup (b : Board) (c : Color) (s : Sq) : (pawnMoves b c s).Nodup := by
  have hdirne : pawnDir c ≠ 0 := by rcases pawnDir_cases c with h | h <;> omega
  unfold pawnMoves
  rw [List.nodup_append]
  refine ⟨?_, ?_, ?_⟩
  · cases h1 : mkSq (sqFile s) (sqRank s + pawnDir c) with
    | none => exact List.nodup_nil
    | some t1 =>
      dsimp only
      by_cases he1 : isEmptySq b t1
      · rw [if_pos he1, List.nodup_append]
        refine ⟨promoteTo_nodup c s t1, ?_, ?_⟩
        · by_cases hs2 : sqRank s = pawnStartRank c
          · rw [if_pos hs2]
            cases h2 : mkSq (sqFile s) (sqRank s + 2 * pawnDir c) with
            | none => exact List.nodup_nil
            | some t2 =>
              dsimp only
              split_ifs
              · exact List.nodup_singleton _
              · exact List.nodup_nil
          · rw [if_neg hs2]
            exact List.nodup_nil
        · intro x hx hx2
          have hx1 := (promoteTo_mem hx).2.1
          by_cases hs2 : sqRank s = pawnStartRank c
          · rw [if_pos hs2] at hx2
            revert hx2
            cases h2 : mkSq (sqFile s) (sqRank s + 2 * pawnDir c) with
            | none => intro hx2; cases hx2
            | some t2 =>
              intro hx2
              dsimp only at hx2
              split_ifs at hx2
              · obtain rfl := List.mem_singleton.mp hx2
                have ht21 : t2 = t1 := hx1
                obtain ⟨hf1, hr1⟩ := mkSq_file_rank h1
                obtain ⟨hf2, hr2⟩ := mkSq_file_rank h2
                rw [ht21] at hr2
                omega
              · cases hx2
          · rw [if_neg hs2] at hx2
            cases hx2
      · rw [if_neg he1]
        exact List.nodup_nil
  · apply nodup_flatMap_of (by decide)
    · intro dx hdx
      exact capsBranch_nodup b c s dx
    · intro dx hdx dx2 hdx2 m hm hm2
      have f1 := capsBranch_file hm
      have f2 := capsBranch_file hm2
      omega
  · intro x hx hx2
    have hfp : sqFile x.toSq = sqFile s := pushesBranch_file hx
    rw [List.mem_flatMap] at hx2
    obtain ⟨dx, hdx, hm⟩ := hx2
    have hdxv : dx = -1 ∨ dx = 1 := by
      rcases List.mem_cons.mp hdx with rfl | h4
      · exact Or.inl rfl
      · rcases List.mem_cons.mp h4 with rfl | h5
        · exact Or.inr rfl
        · cases h5
    have hfc : sqFile x.toSq = sqFile s + dx := capsBranch_file hm
    rcases hdxv with rfl | rfl <;> omega


lemma castleMoves_nodup (b : Board) (c : Color) (s : Sq) : (castleMoves b c s).Nodup := by
  unfold castleMoves
  by_cases hc : c = Color.white
  · subst hc
    simp only [reduceIte]
    rw [show mkSq 5 (0 : Int) = some ((5 : Fin 8), (0 : Fin 8)) from rfl,
      show mkSq 6 (0 : Int) = some ((6 : Fin 8), (0 : Fin 8)) from rfl,
      show mkSq 7 (0 : Int) = some ((7 : Fin 8), (0 : Fin 8)) from rfl,
      show mkSq 3 (0 : Int) = some ((3 : Fin 8), (0 : Fin 8)) from rfl,
      show mkSq 2 (0 : Int) = some ((2 : Fin 8), (0 : Fin 8)) from rfl,
      show mkSq 1 (0 : Int) = some ((1 : Fin 8), (0 : Fin 8)) from rfl,
      show mkSq 0 (0 : Int) = some ((0 : Fin 8), (0 : Fin 8)) from rfl]
    dsimp only
    split_ifs <;> simp [Move.mk.injEq]
  · have hcb : c = Color.black := by
      cases c with
      | white => exact absurd rfl hc
      | black => rfl
    subst hcb
    rw [show (if Color.black = Color.white then (0 : Int) else 7) = (7 : Int) from rfl,
      show (if Color.black = Color.white then b.castleWK else b.castleBK) = b.castleBK from rfl,
      show (if Color.black = Color.white then b.castleWQ else b.castleBQ) = b.castleBQ from rfl]
    dsimp only
    rw [show mkSq 5 (7 : Int) = some ((5 : Fin 8), (7 : Fin 8)) from rfl,
      show mkSq 6 (7 : Int) = some ((6 : Fin 8), (7 : Fin 8)) from rfl,
      show mkSq 7 (7 : Int) = some ((7 : Fin 8), (7 : Fin 8)) from rfl,
      show mkSq 3 (7 : Int) = some ((3 : Fin 8), (7 : Fin 8)) from rfl,
      show mkSq 2 (7 : Int) = some ((2 : Fin 8), (7 : Fin 8)) from rfl,
      show mkSq 1 (7 : Int) = some ((1 : Fin 8), (7 : Fin 8)) from rfl,
      show mkSq 0 (7 : Int) = some ((0 : Fin 8), (7 : Fin 8)) from rfl]
    dsimp only
    split_ifs <;> simp [Move.mk.injEq]

end ChessVision
namespace ChessVision

lemma castleMoves_cases {b : Board} {c : Color} {s : Sq} {m : Move}
    (h : m ∈ castleMoves b c s) :
    ∃ base : Fin 8,
      ((c = Color.white ∧ base = 0) ∨ (c = Color.black ∧ base = 7)) ∧
      s = ((4 : Fin 8), base) ∧
      ((m = ⟨s, ((6 : Fin 8), base), none⟩ ∧
          b.placement ((7 : Fin 8), base) = some ⟨c, PieceType.rook⟩ ∧
          isEmptySq b ((5 : Fin 8), base) = true ∧
          isEmptySq b ((6 : Fin 8), base) = true) ∨
        (m = ⟨s, ((2 : Fin 8), base), none⟩ ∧
          b.placement ((0 : Fin 8), base) = some ⟨c, PieceType.rook⟩ ∧
          isEmptySq b ((3 : Fin 8), base) = true ∧
          isEmptySq b ((2 : Fin 8), base) = true ∧
          isEmptySq b ((1 : Fin 8), base) = true)) := by
  unfold castleMoves at h
  by_cases hc : c = Color.white
  · subst hc
    simp only [reduceIte] at h
    rw [show mkSq 5 (0 : Int) = some ((5 : Fin 8), (0 : Fin 8)) from rfl,
      show mkSq 6 (0 : Int) = some ((6 : Fin 8), (0 : Fin 8)) from rfl,
      show mkSq 7 (0 : Int) = some ((7 : Fin 8), (0 : Fin 8)) from rfl,
      show mkSq 3 (0 : Int) = some ((3 : Fin 8), (0 : Fin 8)) from rfl,
      show mkSq 2 (0 : Int) = some ((2 : Fin 8), (0 : Fin 8)) from rfl,
      show mkSq 1 (0 : Int) = some ((1 : Fin 8), (0 : Fin 8)) from rfl,
      show mkSq 0 (0 : Int) = some ((0 : Fin 8), (0 : Fin 8)) from rfl] at h
    dsimp only at h
    split_ifs at h with h0 hK hQ hK2 hQ2
    all_goals
      first
        | (obtain ⟨hf4, hr0⟩ := id h0
           have hs : s = ((4 : Fin 8), (0 : Fin 8)) := by
             unfold sqFile at hf4
             unfold sqRank at hr0
             obtain ⟨f, r⟩ := s
             dsimp only at hf4 hr0
             rw [Prod.mk.injEq]
             constructor
             · apply Fin.ext
               show f.val = 4
               omega
             · apply Fin.ext
               show r.val = 0
               omega
           refine ⟨0, Or.inl ⟨rfl, rfl⟩, hs, ?_⟩
           rcases List.mem_append.mp h with h2 | h2 <;>
             first
               | (obtain rfl := List.mem_singleton.mp h2
                  first
                    | exact Or.inl ⟨rfl, hK.2.1, hK.2.2.1, hK.2.2.2.1⟩
                    | exact Or.inr ⟨rfl, hQ.2.1, hQ.2.2.1, hQ.2.2.2.1, hQ.2.2.2.2.1⟩
                    | exact Or.inr ⟨rfl, hK2.2.1, hK2.2.2.1, hK2.2.2.2.1, hK2.2.2.2.2.1⟩)
               | cases h2)
        | cases h
  · have hcb : c = Color.black := by
      cases c with
      | white => exact absurd rfl hc
      | black => rfl
    subst hcb
    rw [show (if Color.black = Color.white then (0 : Int) else 7) = (7 : Int) from rfl,
      show (if Color.black = Color.white then b.castleWK else b.castleBK) = b.castleBK from rfl,
      show (if Color.black = Color.white then b.castleWQ else b.castleBQ) = b.castleBQ
        from rfl] at h
    dsimp only at h
    rw [show mkSq 5 (7 : Int) = some ((5 : Fin 8), (7 : Fin 8)) from rfl,
      show mkSq 6 (7 : Int) = some ((6 : Fin 8), (7 : Fin 8)) from rfl,
      show mkSq 7 (7 : Int) = some ((7 : Fin 8), (7 : Fin 8)) from rfl,
      show mkSq 3 (7 : Int) = some ((3 : Fin 8), (7 : Fin 8)) from rfl,
      show mkSq 2 (7 : Int) = some ((2 : Fin 8), (7 : Fin 8)) from rfl,
      show mkSq 1 (7 : Int) = some ((1 : Fin 8), (7 : Fin 8)) from rfl,
      show mkSq 0 (7 : Int) = some ((0 : Fin 8), (7 : Fin 8)) from rfl] at h
    dsimp only at h
    split_ifs at h with h0 hK hQ hK2 hQ2
    all_goals
      first
        | (obtain ⟨hf4, hr0⟩ := id h0
           have hs : s = ((4 : Fin 8), (7 : Fin 8)) := by
             unfold sqFile at hf4
             unfold sqRank at hr0
             obtain ⟨f, r⟩ := s
             dsimp only at hf4 hr0
             rw [Prod.mk.injEq]
             constructor
             · apply Fin.ext
               show f.val = 4
               omega
             · apply Fin.ext
               show r.val = 7
               omega
           refine ⟨7, Or.inr ⟨rfl, rfl⟩, hs, ?_⟩
           rcases List.mem_append.mp h with h2 | h2 <;>
             first
               | (obtain rfl := List.mem_singleton.mp h2
                  first
                    | exact Or.inl ⟨rfl, hK.2.1, hK.2.2.1, hK.2.2.2.1⟩
                    | exact Or.inr ⟨rfl, hQ.2.1, hQ.2.2.1, hQ.2.2.2.1, hQ.2.2.2.2.1⟩
                    | exact Or.inr ⟨rfl, hK2.2.1, hK2.2.2.1, hK2.2.2.2.1, hK2.2.2.2.2.1⟩)
               | cases h2)
        | cases h

lemma movesFromSquare_nodup (b : Board) (s : Sq) : (movesFromSquare b s).Nodup := by
  unfold movesFromSquare
  cases hp : b.placement s with
  | none => exact List.nodup_nil
  | some p =>
    dsimp only
    split_ifs with hc
    · exact List.nodup_nil
    · cases hpt : p.ptype
      · exact pawnMoves_nodup b p.color s
      · exact stepMoves_nodup b p.color s (by decide)
      · exact sliderMoves_nodup b p.color s (by decide) (by decide)
      · exact sliderMoves_nodup b p.color s (by decide) (by decide)
      · exact sliderMoves_nodup b p.color s (by decide) (by decide)
      · rw [List.nodup_append]
        refine ⟨stepMoves_nodup b p.color s (by decide), castleMoves_nodup b p.color s, ?_⟩
        intro x hx hxc
        obtain ⟨d, hd, t, hmk, -, rfl⟩ := stepTargets_mem hx
        obtain ⟨base, -, hs4, hside⟩ := castleMoves_cases hxc
        have hb : -1 ≤ d.1 ∧ d.1 ≤ 1 := by
          have hall : ∀ e ∈ kingOffsets, -1 ≤ e.1 ∧ e.1 ≤ 1 := by decide
          exact hall d hd
        have hft := (mkSq_file_rank hmk).1
        have hfile_s : sqFile s = 4 := by
          rw [hs4]
          rfl
        rcases hside with ⟨hme, -⟩ | ⟨hme, -⟩
        · have ht : t = ((6 : Fin 8), base) := congrArg Move.toSq hme
          have hfile_t : sqFile t = 6 := by
            rw [ht]
            rfl
          omega
        · have ht : t = ((2 : Fin 8), base) := congrArg Move.toSq hme
          have hfile_t : sqFile t = 2 := by
            rw [ht]
            rfl
          omega

lemma pseudoMoves_nodup (b : Board) : (pseudoMoves b).Nodup := by
  unfold pseudoMoves
  apply nodup_flatMap_of allSquares_nodup
  · intro s _
    exact movesFromSquare_nodup b s
  · intro s _ s2 _ m hm hm2
    obtain ⟨-, -, -, h1⟩ := movesFromSquare_mem hm
    obtain ⟨-, -, -, h2⟩ := movesFromSquare_mem hm2
    rw [← h1, ← h2]

lemma legalMoves_nodup (b : Board) : (legalMoves b).Nodup :=
  (pseudoMoves_nodup b).filter _

end ChessVision
namespace ChessVision

lemma Color.other_other (c : Color) : c.other.other = c := by
  cases c <;> rfl

lemma pawnDir_other (c : Color) : pawnDir c.other = -pawnDir c := by
  cases c <;> rfl

lemma empty_of_not_own_not_enemy {b : Board} {c : Color} {t : Sq}
    (h1 : hasOwn b c t = false) (h2 : hasEnemy b c t = false) : b.placement t = none := by
  unfold hasOwn at h1
  unfold hasEnemy at h2
  revert h1 h2
  cases hp : b.placement t with
  | none => intro h1 h2; rfl
  | some q =>
    intro h1 h2
    dsimp only at h1 h2
    simp only [decide_eq_true_eq, decide_eq_false_iff_not, not_not] at h1 h2
    exact absurd h2 h1

lemma isCastlingMove_false_of_ptype {b : Board} {m : Move} {p : Piece}
    (hp : b.placement m.fromSq = some p) (hk : p.ptype ≠ PieceType.king) :
    isCastlingMove b m = false := by
  unfold isCastlingMove
  rw [hp]
  dsimp only
  simp [hk]

lemma isEnPassantMove_false_of_same_file {b : Board} {m : Move}
    (h : sqFile m.fromSq = sqFile m.toSq) : isEnPassantMove b m = false := by
  unfold isEnPassantMove
  have hd : decide (sqFile m.fromSq ≠ sqFile m.toSq) = false := by simp [h]
  rw [hd]
  simp

lemma push_turn {b : Board} {m : Move} {p : Piece} (hp : b.placement m.fromSq = some p) :
    (b.push m).turn = b.turn.other := by
  unfold Board.push
  rw [hp]

lemma push_epSquare {b : Board} {m : Move} {p : Piece} (hp : b.placement m.fromSq = some p) :
    (b.push m).epSquare =
      if p.ptype = PieceType.pawn ∧
          (sqRank m.toSq - sqRank m.fromSq = 2 ∨ sqRank m.fromSq - sqRank m.toSq = 2) then
        mkSq (sqFile m.fromSq) ((sqRank m.fromSq + sqRank m.toSq) / 2)
      else none := by
  unfold Board.push
  rw [hp]

lemma move_eta_none {m : Move} (h : m.promotion = none) :
    (⟨m.fromSq, m.toSq, none⟩ : Move) = m := by
  cases m
  dsimp only at h
  subst h
  rfl

lemma move_eta_some {m : Move} {pt : PieceType} (h : m.promotion = some pt) :
    (⟨m.fromSq, m.toSq, some pt⟩ : Move) = m := by
  cases m
  dsimp only at h
  subst h
  rfl

lemma castling_legal_mem {b : Board} {m : Move} (hleg : m ∈ legalMoves b)
    (hc : isCastlingMove b m = true) :
    ∃ p, b.placement m.fromSq = some p ∧ p.color = b.turn ∧ p.ptype = PieceType.king ∧
      m ∈ castleMoves b p.color m.fromSq := by
  have hms := legalMoves_from hleg
  obtain ⟨p, hp, hcol, -⟩ := movesFromSquare_mem hms
  unfold isCastlingMove at hc
  rw [hp] at hc
  dsimp only at hc
  simp only [Bool.and_eq_true, decide_eq_true_eq] at hc
  obtain ⟨hk, hd⟩ := hc
  refine ⟨p, hp, hcol, hk, ?_⟩
  unfold movesFromSquare at hms
  rw [hp] at hms
  dsimp only at hms
  rw [if_neg (show ¬(p.color ≠ b.turn) from fun hh => hh hcol)] at hms
  rw [hk] at hms
  dsimp only at hms
  rcases List.mem_append.mp hms with h2 | h2
  · exfalso
    obtain ⟨d, hd8, t, hmk, -, heq⟩ := stepTargets_mem h2
    have hft := (mkSq_file_rank hmk).1
    have hbound : -1 ≤ d.1 ∧ d.1 ≤ 1 := by
      have hall : ∀ e ∈ kingOffsets, -1 ≤ e.1 ∧ e.1 ≤ 1 := by decide
      exact hall d hd8
    have htoSq : m.toSq = t := congrArg Move.toSq heq
    rw [htoSq] at hd
    omega
  · exact h2

end ChessVision
namespace ChessVision

lemma mem_pawnMoves_of_legal {b : Board} {m : Move} {p : Piece} (hleg : m ∈ legalMoves b)
    (hp : b.placement m.fromSq = some p) (hpt : p.ptype = PieceType.pawn) :
    m ∈ pawnMoves b p.color m.fromSq := by
  have hms := legalMoves_from hleg
  obtain ⟨p2, hp2, hcol, -⟩ := movesFromSquare_mem hms
  obtain rfl := Option.some.inj (hp.symm.trans hp2)
  unfold movesFromSquare at hms
  rw [hp] at hms
  dsimp only at hms
  rw [if_neg (show ¬(p.color ≠ b.turn) from fun hh => hh hcol)] at hms
  rw [hpt] at hms
  exact hms

lemma legal_color_turn {b : Board} {m : Move} {p : Piece} (hleg : m ∈ legalMoves b)
    (hp : b.placement m.fromSq = some p) : p.color = b.turn := by
  obtain ⟨p2, hp2, hcol, -⟩ := movesFromSquare_mem (legalMoves_from hleg)
  obtain rfl := Option.some.inj (hp.symm.trans hp2)
  exact hcol

lemma epOk_of_reachable {b : Board} (hr : ReachableBoard b) : epOk b := by
  induction hr with
  | init =>
    intro e he
    exact Option.noConfusion he
  | @step b0 m hb0 hm0 ih =>
    intro e he
    obtain ⟨p, hp, hcol, -⟩ := movesFromSquare_mem (legalMoves_from hm0)
    rw [push_epSquare hp] at he
    by_cases hcond : p.ptype = PieceType.pawn ∧
        (sqRank m.toSq - sqRank m.fromSq = 2 ∨ sqRank m.fromSq - sqRank m.toSq = 2)
    · rw [if_pos hcond] at he
      obtain ⟨hpt, hr2⟩ := hcond
      have hpm : m ∈ pawnMoves b0 p.color m.fromSq := mem_pawnMoves_of_legal hm0 hp hpt
      rcases pawnMoves_mem hpm with ⟨t1, hmk1, he1, hpr⟩ |
          ⟨t1, t2, hmk1, he1, hstart, hmk2, he2, hmeq⟩ |
          ⟨dx, t, hdxv, hmk, hen, hpr⟩ | ⟨dx, t, hdxv, hmk, hen, hepq, hemp, hmeq⟩
      · exfalso
        have htt := (promoteTo_mem hpr).2.1
        have hrk := (mkSq_file_rank hmk1).2
        rw [← htt] at hrk
        rcases pawnDir_cases p.color with hdir | hdir <;> omega
      · -- the double push that set the ep square
        have htos : m.toSq = t2 := by rw [hmeq]
        have hpro : m.promotion = none := by rw [hmeq]
        have hrk1 := (mkSq_file_rank hmk1).2
        have hrk2 := (mkSq_file_rank hmk2).2
        have hfl1 := (mkSq_file_rank hmk1).1
        have hfl2 := (mkSq_file_rank hmk2).1
        have hmid : (sqRank m.fromSq + sqRank m.toSq) / 2 =
            sqRank m.fromSq + pawnDir p.color := by
          rw [htos]
          rcases pawnDir_cases p.color with hdir | hdir <;> omega
        rw [hmid, hmk1] at he
        obtain rfl : t1 = e := Option.some.inj he
        have hff : sqFile m.fromSq = sqFile m.toSq := by rw [htos]; omega
        have hepf : isEnPassantMove b0 m = false := isEnPassantMove_false_of_same_file hff
        have hcsf : isCastlingMove b0 m = false :=
          isCastlingMove_false_of_ptype hp (by rw [hpt]; intro h2; cases h2)
        have hplace := push_placement hp hepf hcsf
        have hturn := push_turn hp
        have hdirne : pawnDir p.color ≠ 0 := by
          rcases pawnDir_cases p.color with h2 | h2 <;> omega
        have ht1f : t1 ≠ m.fromSq := by
          intro h2
          rw [h2] at hrk1
          omega
        have ht1t : t1 ≠ m.toSq := by
          intro h2
          rw [h2, htos] at hrk1
          omega
        have ht2f : t2 ≠ m.fromSq := by
          intro h2
          rw [h2] at hrk2
          omega
        refine ⟨?_, ?_, ?_⟩
        · unfold isEmptySq
          rw [hplace]
          dsimp only
          rw [if_neg ht1f, if_neg ht1t]
          unfold isEmptySq at he1
          exact he1
        · rw [hturn, ← hcol]
          cases hpc : p.color with
          | white =>
            refine Or.inl ⟨?_, rfl⟩
            rw [hpc] at hstart hrk1
            have h1 : pawnStartRank Color.white = 1 := rfl
            have h2 : pawnDir Color.white = 1 := rfl
            omega
          | black =>
            refine Or.inr ⟨?_, rfl⟩
            rw [hpc] at hstart hrk1
            have h1 : pawnStartRank Color.black = 6 := rfl
            have h2 : pawnDir Color.black = -1 := rfl
            omega
        · refine ⟨t2, ?_, ?_, ?_⟩
          · apply Fin.ext
            unfold sqFile at hfl1 hfl2
            omega
          · rw [hturn, ← hcol, pawnDir_other]
            omega
          · rw [hplace]
            dsimp only
            rw [if_neg ht2f, if_pos htos.symm]
            rw [hturn, ← hcol, Color.other_other]
            have hpp : p = ⟨p.color, PieceType.pawn⟩ := by
              cases p
              dsimp only at hpt
              rw [hpt]
            rw [hpro]
            rw [← hpp]
      · exfalso
        have htt := (promoteTo_mem hpr).2.1
        have hrk := (mkSq_file_rank hmk).2
        rw [← htt] at hrk
        rcases pawnDir_cases p.color with hdir | hdir <;> omega
      · exfalso
        have htt : m.toSq = t := by rw [hmeq]
        have hrk := (mkSq_file_rank hmk).2
        rw [← htt] at hrk
        rcases pawnDir_cases p.color with hdir | hdir <;> omega
    · rw [if_neg hcond] at he
      exact Option.noConfusion he

lemma promotion_shape {b : Board} {m : Move} (hleg : m ∈ legalMoves b)
    (hpr : m.promotion ≠ none) :
    ∃ p, b.placement m.fromSq = some p ∧ p.color = b.turn ∧ p.ptype = PieceType.pawn ∧
      sqRank m.toSq = pawnLastRank b.turn := by
  have hms := legalMoves_from hleg
  obtain ⟨p, hp, hcol, -⟩ := movesFromSquare_mem hms
  suffices h : p.ptype = PieceType.pawn ∧ sqRank m.toSq = pawnLastRank b.turn by
    exact ⟨p, hp, hcol, h.1, h.2⟩
  unfold movesFromSquare at hms
  rw [hp] at hms
  dsimp only at hms
  rw [if_neg (show ¬(p.color ≠ b.turn) from fun hh => hh hcol)] at hms
  revert hms
  cases hpt : p.ptype <;> intro hms <;> dsimp only at hms
  · refine ⟨rfl, ?_⟩
    rcases pawnMoves_mem hms with ⟨t1, hmk1, he1, hpr1⟩ |
        ⟨t1, t2, -, -, -, -, -, hmeq⟩ | ⟨dx, t, -, hmk, -, hpr1⟩ | ⟨dx, t, -, -, -, -, -, hmeq⟩
    · obtain ⟨-, htt, -, himp⟩ := promoteTo_mem hpr1
      by_cases hl : sqRank t1 = pawnLastRank p.color
      · rw [← htt, hcol] at hl
        exact hl
      · exact absurd (himp hl) hpr
    · exact absurd (by rw [hmeq] : m.promotion = none) hpr
    · obtain ⟨-, htt, -, himp⟩ := promoteTo_mem hpr1
      by_cases hl : sqRank t = pawnLastRank p.color
      · rw [← htt, hcol] at hl
        exact hl
      · exact absurd (himp hl) hpr
    · exact absurd (by rw [hmeq] : m.promotion = none) hpr
  · obtain ⟨d, -, t, -, -, heq⟩ := stepTargets_mem hms
    exact absurd (by rw [heq] : m.promotion = none) hpr
  · obtain ⟨d, -, t, -, heq⟩ := sliderTargets_mem hms
    exact absurd (by rw [heq] : m.promotion = none) hpr
  · obtain ⟨d, -, t, -, heq⟩ := sliderTargets_mem hms
    exact absurd (by rw [heq] : m.promotion = none) hpr
  · obtain ⟨d, -, t, -, heq⟩ := sliderTargets_mem hms
    exact absurd (by rw [heq] : m.promotion = none) hpr
  · rcases List.mem_append.mp hms with h2 | h2
    · obtain ⟨d, -, t, -, -, heq⟩ := stepTargets_mem h2
      exact absurd (by rw [heq] : m.promotion = none) hpr
    · exact absurd (castleMoves_basic h2).2.1 hpr

lemma no_plain_to_lastRank {b : Board} {src dst : Sq} (hr : ReachableBoard b)
    {p : Piece} (hp : b.placement src = some p) (hpt : p.ptype = PieceType.pawn)
    (hlast : sqRank dst = pawnLastRank b.turn) :
    (⟨src, dst, none⟩ : Move) ∉ legalMoves b := by
  intro hleg
  have hcol : p.color = b.turn := legal_color_turn hleg hp
  have hpm := mem_pawnMoves_of_legal hleg hp hpt
  have hlast2 : sqRank dst = pawnLastRank p.color := by rw [hcol]; exact hlast
  rcases pawnMoves_mem hpm with ⟨t1, hmk1, he1, hpr1⟩ |
      ⟨t1, t2, hmk1, he1, hstart, hmk2, he2, hmeq⟩ |
      ⟨dx, t, hdxv, hmk, hen, hpr1⟩ | ⟨dx, t, hdxv, hmk, hen, hepq, hemp, hmeq⟩
  · obtain ⟨-, htt, himp, -⟩ := promoteTo_mem hpr1
    have hdt : dst = t1 := htt
    exact himp (by rw [← hdt]; exact hlast2) rfl
  · have hdt : dst = t2 := by
      have := congrArg Move.toSq hmeq
      exact this
    have hrk2 := (mkSq_file_rank hmk2).2
    rw [← hdt] at hrk2
    cases hpc : p.color with
    | white =>
      rw [hpc] at hstart hrk2 hlast2
      have e1 : pawnStartRank Color.white = 1 := rfl
      have e2 : pawnDir Color.white = 1 := rfl
      have e3 : pawnLastRank Color.white = 7 := rfl
      omega
    | black =>
      rw [hpc] at hstart hrk2 hlast2
      have e1 : pawnStartRank Color.black = 6 := rfl
      have e2 : pawnDir Color.black = -1 := rfl
      have e3 : pawnLastRank Color.black = 0 := rfl
      omega
  · obtain ⟨-, htt, himp, -⟩ := promoteTo_mem hpr1
    have hdt : dst = t := htt
    exact himp (by rw [← hdt]; exact hlast2) rfl
  · have hdt : dst = t := by
      have := congrArg Move.toSq hmeq
      exact this
    obtain ⟨-, hrank, -⟩ := epOk_of_reachable hr t hepq
    rcases hrank with ⟨hrt, hturn⟩ | ⟨hrt, hturn⟩
    · rw [← hdt] at hrt
      rw [hturn] at hlast
      have e3 : pawnLastRank Color.black = 0 := rfl
      omega
    · rw [← hdt] at hrt
      rw [hturn] at hlast
      have e3 : pawnLastRank Color.white = 7 := rfl
      omega

end ChessVision
namespace ChessVision

lemma detectEnPassant_finds {b : Board} {vanished appeared : Finset Sq} {src dst v : Sq}
    (ha : setList appeared = [dst])
    (hv : setList vanished = [src, v] ∨ setList vanished = [v, src])
    {p : Piece} (hps : b.placement src = some p) (hpt : p.ptype = PieceType.pawn)
    (hfile : sqFile v = sqFile dst)
    (hleg : (⟨src, dst, none⟩ : Move) ∈ legalMoves b)
    (hep : isEnPassantMove b ⟨src, dst, none⟩ = true) :
    detectEnPassant b vanished appeared = some ⟨src, dst, none⟩ := by
  have hepvfalse : isEnPassantMove b ⟨v, dst, none⟩ = false :=
    isEnPassantMove_false_of_same_file hfile
  have hsrc_some : (match b.placement src with
      | some p2 =>
        if p2.ptype = PieceType.pawn then
          if (⟨src, dst, none⟩ : Move) ∈ legalMoves b ∧
              isEnPassantMove b ⟨src, dst, none⟩ then some (⟨src, dst, none⟩ : Move)
          else none
        else none
      | none => none) = some ⟨src, dst, none⟩ := by
    rw [hps]
    dsimp only
    rw [if_pos hpt, if_pos ⟨hleg, hep⟩]
  unfold detectEnPassant
  rw [ha]
  dsimp only
  rcases hv with hveq | hveq <;> rw [hveq]
  · rw [List.findSome?_cons_of_isSome]
    · exact hsrc_some
    · exact Option.isSome_iff_exists.mpr ⟨_, hsrc_some⟩
  · rw [List.findSome?_cons_of_isNone]
    · rw [List.findSome?_cons_of_isSome]
      · exact hsrc_some
      · exact Option.isSome_iff_exists.mpr ⟨_, hsrc_some⟩
    · dsimp only
      cases hpv : b.placement v with
      | none => rfl
      | some q =>
        dsimp only
        by_cases h1 : q.ptype = PieceType.pawn
        · rw [if_pos h1,
            if_neg (fun hand => absurd (hepvfalse.symm.trans hand.2) Bool.false_ne_true)]
          rfl
        · rw [if_neg h1]
          rfl

lemma detectCastling_finds {b : Board} {vanished appeared : Finset Sq} {kf rf kt rt : Sq}
    (hv : setList vanished = [kf, rf] ∨ setList vanished = [rf, kf])
    (ha : setList appeared = [kt, rt] ∨ setList appeared = [rt, kt])
    {p : Piece} (hkp : b.placement kf = some p) (hkk : p.ptype = PieceType.king)
    (hrp : ∀ q, b.placement rf = some q → q.ptype ≠ PieceType.king)
    (hgeom : (sqFile kt - sqFile kf = 2 ∨ sqFile kf - sqFile kt = 2) ∧ sqRank kt = sqRank kf)
    (hrt_bad : ¬((sqFile rt - sqFile kf = 2 ∨ sqFile kf - sqFile rt = 2) ∧
      sqRank rt = sqRank kf))
    (hleg : (⟨kf, kt, none⟩ : Move) ∈ legalMoves b) :
    detectCastling b vanished appeared = some ⟨kf, kt, none⟩ := by
  have hinner : (setList appeared).findSome? (fun a =>
      if (sqFile a - sqFile kf = 2 ∨ sqFile kf - sqFile a = 2) ∧ sqRank a = sqRank kf then
        if (⟨kf, a, none⟩ : Move) ∈ legalMoves b then some (⟨kf, a, none⟩ : Move) else none
      else none) = some ⟨kf, kt, none⟩ := by
    rcases ha with haeq | haeq <;> rw [haeq]
    · rw [List.findSome?_cons_of_isSome]
      · rw [if_pos hgeom, if_pos hleg]
      · rw [if_pos hgeom, if_pos hleg]
        rfl
    · rw [List.findSome?_cons_of_isNone]
      · rw [List.findSome?_cons_of_isSome]
        · rw [if_pos hgeom, if_pos hleg]
        · rw [if_pos hgeom, if_pos hleg]
          rfl
      · rw [if_neg hrt_bad]
        rfl
  have hkf_some : (match b.placement kf with
      | some p2 =>
        if p2.ptype = PieceType.king then
          (setList appeared).findSome? (fun a =>
            if (sqFile a - sqFile kf = 2 ∨ sqFile kf - sqFile a = 2) ∧
                sqRank a = sqRank kf then
              if (⟨kf, a, none⟩ : Move) ∈ legalMoves b then some (⟨kf, a, none⟩ : Move)
              else none
            else none)
        else none
      | none => none) = some ⟨kf, kt, none⟩ := by
    rw [hkp]
    dsimp only
    rw [if_pos hkk]
    exact hinner
  unfold detectCastling
  rcases hv with hveq | hveq <;> rw [hveq]
  · rw [List.findSome?_cons_of_isSome]
    · exact hkf_some
    · exact Option.isSome_iff_exists.mpr ⟨_, hkf_some⟩
  · rw [List.findSome?_cons_of_isNone]
    · rw [List.findSome?_cons_of_isSome]
      · exact hkf_some
      · exact Option.isSome_iff_exists.mpr ⟨_, hkf_some⟩
    · dsimp only
      cases hpv : b.placement rf with
      | none => rfl
      | some q =>
        dsimp only
        rw [if_neg (hrp q hpv)]
        rfl

lemma processOccupancyChange_caseA {b : Board} {grid : Finset Sq} {f t : Sq}
    (hv : getBoardOccupancy b \ grid = {f}) (ha : grid \ getBoardOccupancy b = {t}) :
    processOccupancyChange b grid =
      (match validateMove b f t with
       | some m => (some m, Status.moveConfirmed, b.push m)
       | none => (none, Status.illegalMove, b)) := by
  unfold processOccupancyChange
  dsimp only
  rw [hv, ha, setList_singleton, setList_singleton]
  rw [if_pos ⟨Finset.card_singleton f, Finset.card_singleton t⟩]

lemma processOccupancyChange_caseB {b : Board} {grid : Finset Sq} {x y u v : Sq}
    (hv : getBoardOccupancy b \ grid = {x, y}) (hxy : x ≠ y)
    (ha : grid \ getBoardOccupancy b = {u, v}) (huv : u ≠ v) :
    processOccupancyChange b grid =
      (match detectCastling b {x, y} {u, v} with
       | some m => (some m, Status.castlingConfirmed, b.push m)
       | none => (none, Status.noValidChange, b)) := by
  have hc2 : ({x, y} : Finset Sq).card = 2 := Finset.card_pair hxy
  have hc2b : ({u, v} : Finset Sq).card = 2 := Finset.card_pair huv
  unfold processOccupancyChange
  dsimp only
  rw [hv, ha]
  rw [if_neg (fun hand => absurd (hand.1.symm.trans hc2) (by decide)),
    if_pos ⟨hc2, hc2b⟩]

lemma processOccupancyChange_caseC {b : Board} {grid : Finset Sq} {x y t : Sq}
    (hv : getBoardOccupancy b \ grid = {x, y}) (hxy : x ≠ y)
    (ha : grid \ getBoardOccupancy b = {t}) :
    processOccupancyChange b grid =
      (match detectEnPassant b {x, y} {t} with
       | some m => (some m, Status.enPassantConfirmed, b.push m)
       | none => (none, Status.noValidChange, b)) := by
  have hc2 : ({x, y} : Finset Sq).card = 2 := Finset.card_pair hxy
  unfold processOccupancyChange
  dsimp only
  rw [hv, ha]
  rw [if_neg (fun hand => absurd (hand.1.symm.trans hc2) (by decide)),
    if_neg (fun hand => absurd (hand.2.symm.trans (Finset.card_singleton t)) (by decide)),
    if_pos ⟨hc2, Finset.card_singleton t⟩]

end ChessVision
namespace ChessVision

lemma mem_getBoardOccupancy {b : Board} {s : Sq} :
    s ∈ getBoardOccupancy b ↔ (b.placement s).isSome = true := by
  unfold getBoardOccupancy
  simp [Finset.mem_filter]

lemma c1aux_normal (b : Board) (m : Move) (hr : ReachableBoard b) (hm : m ∈ legalMoves b)
    (hcs : isCastlingMove b m = false) (hepf : isEnPassantMove b m = false)
    (hcapf : isCaptureMove b m = false)
    (hpromo : m.promotion = none ∨ m.promotion = some PieceType.queen) :
    processOccupancyChange b (impliedOccupancy b m) =
      (some m, Status.moveConfirmed, b.push m) := by
  obtain ⟨p, hp, hcol, -⟩ := movesFromSquare_mem (legalMoves_from hm)
  have hfromOcc : m.fromSq ∈ getBoardOccupancy b :=
    mem_getBoardOccupancy.mpr (by rw [hp]; rfl)
  have henf : hasEnemy b b.turn m.toSq = false := (Bool.or_eq_false_iff.mp
    (by unfold isCaptureMove at hcapf; exact hcapf)).1
  have hown : hasOwn b b.turn m.toSq = false := movesFromSquare_not_own (legalMoves_from hm)
  have htoNone : b.placement m.toSq = none := empty_of_not_own_not_enemy hown henf
  have htoNot : m.toSq ∉ getBoardOccupancy b := by
    rw [mem_getBoardOccupancy, htoNone]
    exact Bool.false_ne_true
  have hgrid : impliedOccupancy b m =
      insert m.toSq ((getBoardOccupancy b).erase m.fromSq) := by
    unfold impliedOccupancy
    rw [if_neg (fun h2 => Bool.false_ne_true (hcs.symm.trans h2)),
      if_neg (fun h2 => Bool.false_ne_true (hepf.symm.trans h2)),
      if_neg (fun h2 => Bool.false_ne_true (hcapf.symm.trans h2))]
  rw [hgrid, processOccupancyChange_caseA (van_normal hfromOcc htoNot)
    (app_normal hfromOcc htoNot)]
  rcases hpromo with hpro | hpro
  · have hval : validateMove b m.fromSq m.toSq = some m := by
      unfold validateMove
      rw [if_pos (by rw [move_eta_none hpro]; exact hm)]
      rw [move_eta_none hpro]
    rw [hval]
  · obtain ⟨p3, hp3, hcol3, hpt3, hlast⟩ := promotion_shape hm
      (by rw [hpro]; intro h2; cases h2)
    have hval : validateMove b m.fromSq m.toSq = some m := by
      unfold validateMove
      rw [if_neg (no_plain_to_lastRank hr hp3 hpt3 hlast)]
      rw [if_pos (by rw [move_eta_some hpro]; exact hm)]
      rw [move_eta_some hpro]
    rw [hval]

lemma c1aux_capture (b : Board) (m : Move) (hm : m ∈ legalMoves b)
    (hepf : isEnPassantMove b m = false) (hcap : isCaptureMove b m = true)
    (huniq : ∀ m2 ∈ legalMoves b, m2.fromSq = m.fromSq → isCaptureMove b m2 = true →
      m2.toSq ∈ impliedOccupancy b m → m2 = m) :
    processOccupancyChange b (impliedOccupancy b m) =
      (some m, Status.captureConfirmed, b.push m) := by
  obtain ⟨p, hp, hcol, -⟩ := movesFromSquare_mem (legalMoves_from hm)
  have hfromOcc : m.fromSq ∈ getBoardOccupancy b :=
    mem_getBoardOccupancy.mpr (by rw [hp]; rfl)
  have hen2 : hasEnemy b b.turn m.toSq = true := by
    unfold isCaptureMove at hcap
    rcases Bool.or_eq_true_iff.mp hcap with h2 | h2
    · exact h2
    · exact absurd (hepf.symm.trans h2) Bool.false_ne_true
  have htoSome : (b.placement m.toSq).isSome = true := by
    unfold hasEnemy at hen2
    revert hen2
    cases hq : b.placement m.toSq with
    | none => intro hen2; cases hen2
    | some q => intro hen2; rfl
  have hcs : isCastlingMove b m = false := isCastlingMove_false_of_occupied hm htoSome
  have hgrid : impliedOccupancy b m = (getBoardOccupancy b).erase m.fromSq := by
    unfold impliedOccupancy
    rw [if_neg (fun h2 => Bool.false_ne_true (hcs.symm.trans h2)),
      if_neg (fun h2 => Bool.false_ne_true (hepf.symm.trans h2)),
      if_pos hcap]
  have hnefrom : m.toSq ≠ m.fromSq := by
    intro h2
    unfold hasEnemy at hen2
    rw [h2, hp] at hen2
    simp only [decide_eq_true_eq] at hen2
    exact hen2 hcol
  have hmemc : m ∈ detectCaptureCandidates b m.fromSq
      ((getBoardOccupancy b).erase m.fromSq) := by
    unfold detectCaptureCandidates
    rw [List.mem_filter]
    refine ⟨hm, ?_⟩
    simp only [decide_eq_true_eq]
    exact ⟨trivial, hcap, Finset.mem_erase.mpr ⟨hnefrom, mem_getBoardOccupancy.mpr htoSome⟩⟩
  have hall : ∀ x ∈ detectCaptureCandidates b m.fromSq
      ((getBoardOccupancy b).erase m.fromSq), x = m := by
    intro x hx
    have hx2 := List.mem_filter.mp hx
    have hx3 := hx2.2
    simp only [decide_eq_true_eq] at hx3
    obtain ⟨hxfrom, hxcap, hxto⟩ := hx3
    exact huniq x hx2.1 hxfrom hxcap (by rw [hgrid]; exact hxto)
  have hsingle : detectCaptureCandidates b m.fromSq
      ((getBoardOccupancy b).erase m.fromSq) = [m] :=
    eq_singleton_of_nodup_all_eq ((legalMoves_nodup b).filter _) hmemc hall
  have hfound : detectCapture b m.fromSq ((getBoardOccupancy b).erase m.fromSq) =
      CaptureResult.found m := by
    unfold detectCapture
    rw [hsingle]
  rw [hgrid, processOccupancyChange_caseD b _ m.fromSq (van_cap hfromOcc) app_cap, hfound]

end ChessVision
namespace ChessVision

lemma c1aux_ep (b : Board) (m : Move) (hr : ReachableBoard b) (hm : m ∈ legalMoves b)
    (he : isEnPassantMove b m = true) :
    processOccupancyChange b (impliedOccupancy b m) =
      (some m, Status.enPassantConfirmed, b.push m) := by
  obtain ⟨p, hp, hcol, -⟩ := movesFromSquare_mem (legalMoves_from hm)
  have hfromOcc : m.fromSq ∈ getBoardOccupancy b :=
    mem_getBoardOccupancy.mpr (by rw [hp]; rfl)
  have he2 := he
  unfold isEnPassantMove at he2
  simp only [Bool.and_eq_true, decide_eq_true_eq] at he2
  obtain ⟨⟨⟨hepsq, hmatch⟩, hfiles⟩, hempty⟩ := he2
  rw [hp] at hmatch
  have hpt : p.ptype = PieceType.pawn := by simpa using hmatch
  have hcs : isCastlingMove b m = false :=
    isCastlingMove_false_of_ptype hp (by rw [hpt]; intro h2; cases h2)
  have htoNone : b.placement m.toSq = none := by
    unfold isEmptySq at hempty
    exact Option.isNone_iff_eq_none.mp hempty
  have htoNot : m.toSq ∉ getBoardOccupancy b := by
    rw [mem_getBoardOccupancy, htoNone]
    exact Bool.false_ne_true
  have hpm := mem_pawnMoves_of_legal hm hp hpt
  rcases pawnMoves_mem hpm with ⟨t1, hmk1, he1, hpr1⟩ |
      ⟨t1, t2, hmk1, he1, hst, hmk2, he2b, hmeq⟩ |
      ⟨dx, t, hdxv, hmk, hen, hpr1⟩ | ⟨dx, t, hdxv, hmk, hen, hepq, hemp, hmeq⟩
  · exfalso
    have htt := (promoteTo_mem hpr1).2.1
    have hfl := (mkSq_file_rank hmk1).1
    rw [← htt] at hfl
    exact hfiles hfl.symm
  · exfalso
    have htt : m.toSq = t2 := by rw [hmeq]
    have hfl := (mkSq_file_rank hmk2).1
    rw [← htt] at hfl
    exact hfiles hfl.symm
  · exfalso
    have htt := (promoteTo_mem hpr1).2.1
    rw [← htt] at hen
    unfold hasEnemy at hen
    rw [htoNone] at hen
    cases hen
  · have htos : m.toSq = t := by rw [hmeq]
    have hpro : m.promotion = none := by rw [hmeq]
    obtain ⟨-, hrankE, v, hv1, hv2, hvp⟩ := epOk_of_reachable hr m.toSq hepsq
    have hrkto := (mkSq_file_rank hmk).2
    rw [← htos] at hrkto
    have hveq : v = (m.toSq.1, m.fromSq.2) := by
      rw [Prod.ext_iff]
      refine ⟨hv1, ?_⟩
      apply Fin.ext
      unfold sqRank at hv2
      have hdirother : pawnDir b.turn = pawnDir p.color := by rw [hcol]
      rw [hdirother] at hv2
      unfold sqRank at hrkto
      show v.2.val = m.fromSq.2.val
      omega
    have hvvOcc : (m.toSq.1, m.fromSq.2) ∈ getBoardOccupancy b := by
      rw [← hveq]
      exact mem_getBoardOccupancy.mpr (by rw [hvp]; rfl)
    have hfromne : m.fromSq ≠ (m.toSq.1, m.fromSq.2) := by
      intro h2
      have := congrArg Prod.fst h2
      dsimp only at this
      apply hfiles
      unfold sqFile
      rw [this]
    have hgrid : impliedOccupancy b m =
        insert m.toSq (((getBoardOccupancy b).erase m.fromSq).erase
          (m.toSq.1, m.fromSq.2)) := by
      unfold impliedOccupancy
      rw [if_neg (fun h2 => Bool.false_ne_true (hcs.symm.trans h2)), if_pos he]
    rw [hgrid, processOccupancyChange_caseC
      (van_ep hfromOcc hvvOcc htoNot) hfromne (app_ep htoNot)]
    have hdet : detectEnPassant b {m.fromSq, (m.toSq.1, m.fromSq.2)} {m.toSq} =
        some ⟨m.fromSq, m.toSq, none⟩ :=
      detectEnPassant_finds (setList_singleton m.toSq) (setList_pair hfromne) hp hpt
        rfl (by rw [move_eta_none hpro]; exact hm) (by rw [move_eta_none hpro]; exact he)
    rw [hdet, move_eta_none hpro]

end ChessVision
namespace ChessVision

lemma c1aux_castle (b : Board) (m : Move) (hm : m ∈ legalMoves b)
    (hc : isCastlingMove b m = true) :
    processOccupancyChange b (impliedOccupancy b m) =
      (some m, Status.castlingConfirmed, b.push m) := by
  obtain ⟨p2, hp2, hcol2, hk2, hcm⟩ := castling_legal_mem hm hc
  have hfromOcc : m.fromSq ∈ getBoardOccupancy b :=
    mem_getBoardOccupancy.mpr (by rw [hp2]; rfl)
  obtain ⟨base, hbase, hs4, hside⟩ := castleMoves_cases hcm
  rcases hside with ⟨hme, hrook, he5, he6⟩ | ⟨hme, hrook, he3, he2, he1⟩
  · have htos : m.toSq = ((6 : Fin 8), base) := by rw [hme]
    have hpro : m.promotion = none := by rw [hme]
    have hfile6 : sqFile m.toSq = 6 := by
      rw [htos]
      rfl
    have hrfOcc : ((7 : Fin 8), base) ∈ getBoardOccupancy b :=
      mem_getBoardOccupancy.mpr (by rw [hrook]; rfl)
    have hktNone : b.placement m.toSq = none := by
      rw [htos]
      unfold isEmptySq at he6
      exact Option.isNone_iff_eq_none.mp he6
    have hktNot : m.toSq ∉ getBoardOccupancy b := by
      rw [mem_getBoardOccupancy, hktNone]
      exact Bool.false_ne_true
    have hrtNot : ((5 : Fin 8), base) ∉ getBoardOccupancy b := by
      rw [mem_getBoardOccupancy]
      unfold isEmptySq at he5
      rw [Option.isNone_iff_eq_none.mp he5]
      exact Bool.false_ne_true
    have hkfrf : m.fromSq ≠ ((7 : Fin 8), base) := by
      rw [hs4]
      intro h2
      exact absurd (show (4 : Fin 8) = 7 from congrArg Prod.fst h2) (by decide)
    have hktrt : m.toSq ≠ ((5 : Fin 8), base) := by
      rw [htos]
      intro h2
      exact absurd (show (6 : Fin 8) = 5 from congrArg Prod.fst h2) (by decide)
    have hgrid : impliedOccupancy b m =
        insert m.toSq (insert ((5 : Fin 8), base)
          (((getBoardOccupancy b).erase m.fromSq).erase ((7 : Fin 8), base))) := by
      unfold impliedOccupancy
      rw [if_pos hc, if_pos hfile6, if_pos hfile6, hs4]
    rw [hgrid, processOccupancyChange_caseB
      (van_castle hfromOcc hrfOcc hktNot hrtNot) hkfrf
      (app_castle hktNot hrtNot) hktrt]
    have hdet : detectCastling b {m.fromSq, ((7 : Fin 8), base)}
        {m.toSq, ((5 : Fin 8), base)} = some ⟨m.fromSq, m.toSq, none⟩ :=
      detectCastling_finds (setList_pair hkfrf) (setList_pair hktrt) hp2 hk2
        (fun q hq => by
          rw [hrook] at hq
          obtain rfl := Option.some.inj hq
          intro h3
          cases h3)
        (by
          refine ⟨Or.inl ?_, ?_⟩
          · rw [htos, hs4]
            rfl
          · rw [htos, hs4]
            rfl)
        (by
          rw [hs4]
          intro h3
          rcases h3.1 with h4 | h4
          · exact absurd (show (1 : Int) = 2 from h4) (by decide)
          · exact absurd (show (-1 : Int) = 2 from h4) (by decide))
        (by rw [htos, ← hme]; exact hm)
    rw [hdet, move_eta_none hpro]
  · have htos : m.toSq = ((2 : Fin 8), base) := by rw [hme]
    have hpro : m.promotion = none := by rw [hme]
    have hfile2 : ¬(sqFile m.toSq = 6) := by
      rw [htos]
      intro h4
      exact absurd (show (2 : Int) = 6 from h4) (by decide)
    have hrfOcc : ((0 : Fin 8), base) ∈ getBoardOccupancy b :=
      mem_getBoardOccupancy.mpr (by rw [hrook]; rfl)
    have hktNone : b.placement m.toSq = none := by
      rw [htos]
      unfold isEmptySq at he2
      exact Option.isNone_iff_eq_none.mp he2
    have hktNot : m.toSq ∉ getBoardOccupancy b := by
      rw [mem_getBoardOccupancy, hktNone]
      exact Bool.false_ne_true
    have hrtNot : ((3 : Fin 8), base) ∉ getBoardOccupancy b := by
      rw [mem_getBoardOccupancy]
      unfold isEmptySq at he3
      rw [Option.isNone_iff_eq_none.mp he3]
      exact Bool.false_ne_true
    have hkfrf : m.fromSq ≠ ((0 : Fin 8), base) := by
      rw [hs4]
      intro h2
      exact absurd (show (4 : Fin 8) = 0 from congrArg Prod.fst h2) (by decide)
    have hktrt : m.toSq ≠ ((3 : Fin 8), base) := by
      rw [htos]
      intro h2
      exact absurd (show (2 : Fin 8) = 3 from congrArg Prod.fst h2) (by decide)
    have hgrid : impliedOccupancy b m =
        insert m.toSq (insert ((3 : Fin 8), base)
          (((getBoardOccupancy b).erase m.fromSq).erase ((0 : Fin 8), base))) := by
      unfold impliedOccupancy
      rw [if_pos hc, if_neg hfile2, if_neg hfile2, hs4]
    rw [hgrid, processOccupancyChange_caseB
      (van_castle hfromOcc hrfOcc hktNot hrtNot) hkfrf
      (app_castle hktNot hrtNot) hktrt]
    have hdet : detectCastling b {m.fromSq, ((0 : Fin 8), base)}
        {m.toSq, ((3 : Fin 8), base)} = some ⟨m.fromSq, m.toSq, none⟩ :=
      detectCastling_finds (setList_pair hkfrf) (setList_pair hktrt) hp2 hk2
        (fun q hq => by
          rw [hrook] at hq
          obtain rfl := Option.some.inj hq
          intro h3
          cases h3)
        (by
          refine ⟨Or.inr ?_, ?_⟩
          · rw [htos, hs4]
            rfl
          · rw [htos, hs4]
            rfl)
        (by
          rw [hs4]
          intro h3
          rcases h3.1 with h4 | h4
          · exact absurd (show (-1 : Int) = 2 from h4) (by decide)
          · exact absurd (show (1 : Int) = 2 from h4) (by decide))
        (by rw [htos, ← hme]; exact hm)
    rw [hdet, move_eta_none hpro]

end ChessVision
namespace ChessVision

/-- C1 (amended): feeding the reconciler the occupancy snapshot implied by a
legal move `m` from a reachable position commits exactly `m` with the matching
status in each of the four classification regimes — castling always; en
passant always; a plain (non-capture) move whenever `m`'s promotion is the
queen automatic choice or absent; an ordinary capture whenever `m` is the
unique legal capture from its origin square into the snapshot.  (The original
claim, without the last two provisos, fails: see the counterexample, where a
second legal capture from the same origin makes the reconciler report
`ambiguous_capture` and commit nothing.) -/
theorem c1_implied_snapshot_resolution (b : Board) (m : Move)
    (hr : ReachableBoard b) (hm : m ∈ legalMoves b) :
    (isCastlingMove b m = true →
      processOccupancyChange b (impliedOccupancy b m) =
        (some m, Status.castlingConfirmed, b.push m)) ∧
    (isEnPassantMove b m = true →
      processOccupancyChange b (impliedOccupancy b m) =
        (some m, Status.enPassantConfirmed, b.push m)) ∧
    (isCastlingMove b m = false → isEnPassantMove b m = false →
      isCaptureMove b m = false →
      (m.promotion = none ∨ m.promotion = some PieceType.queen) →
      processOccupancyChange b (impliedOccupancy b m) =
        (some m, Status.moveConfirmed, b.push m)) ∧
    (isEnPassantMove b m = false → isCaptureMove b m = true →
      (∀ m2 ∈ legalMoves b, m2.fromSq = m.fromSq → isCaptureMove b m2 = true →
        m2.toSq ∈ impliedOccupancy b m → m2 = m) →
      processOccupancyChange b (impliedOccupancy b m) =
        (some m, Status.captureConfirmed, b.push m)) :=
  ⟨c1aux_castle b m hm, c1aux_ep b m hr hm,
    fun hcs hepf hcapf hpromo => c1aux_normal b m hr hm hcs hepf hcapf hpromo,
    fun hepf hcap huniq => c1aux_capture b m hm hepf hcap huniq⟩

/-- C1 counterexample: after 1.e4 d5 2.a3 f5 (a reachable position), the
capture e4xd5 is legal, but feeding its implied snapshot to the reconciler
yields no move and status `ambiguous_capture` with the board untouched,
because e4xf5 is a second legal capture from e4 into the snapshot — the
round trip does not return the move that generated the diff. -/
theorem c1_counterexample :
    ReachableBoard twoCapturesBoard ∧
    exd5 ∈ legalMoves twoCapturesBoard ∧
    isCaptureMove twoCapturesBoard exd5 = true ∧
    (processOccupancyChange twoCapturesBoard
      (impliedOccupancy twoCapturesBoard exd5)).1 = none ∧
    (processOccupancyChange twoCapturesBoard
      (impliedOccupancy twoCapturesBoard exd5)).2.1 = Status.ambiguousCapture ∧
    (processOccupancyChange twoCapturesBoard
      (impliedOccupancy twoCapturesBoard exd5)).2.2 = twoCapturesBoard := by
  have h1 : (processOccupancyChange twoCapturesBoard
      (impliedOccupancy twoCapturesBoard exd5)).1 = none := by decide
  have hb : (processOccupancyChange twoCapturesBoard
      (impliedOccupancy twoCapturesBoard exd5)).2.2 = twoCapturesBoard := by
    have h2 := process_shape twoCapturesBoard (impliedOccupancy twoCapturesBoard exd5)
    rcases hpp : processOccupancyChange twoCapturesBoard
        (impliedOccupancy twoCapturesBoard exd5) with ⟨o, st, bb⟩
    rw [hpp] at h1 h2
    dsimp only at h1 ⊢
    subst h1
    dsimp only at h2
    exact h2
  refine ⟨?_, by decide, by decide, h1, by decide, hb⟩
  unfold twoCapturesBoard
  exact ReachableBoard.step (ReachableBoard.step (ReachableBoard.step
    (ReachableBoard.step ReachableBoard.init (by decide)) (by decide)) (by decide))
    (by decide)

/-- C1 witness: the opening push 1.e4 from the reachable starting position is
a plain move with no promotion; its implied snapshot resolves to exactly
1.e4 with status `move_confirmed` and the move is committed. -/
theorem c1_witness :
    (⟨((4 : Fin 8), (1 : Fin 8)), ((4 : Fin 8), (3 : Fin 8)), none⟩ : Move) ∈
      legalMoves initBoard ∧
    processOccupancyChange initBoard
        (impliedOccupancy initBoard
          ⟨((4 : Fin 8), (1 : Fin 8)), ((4 : Fin 8), (3 : Fin 8)), none⟩) =
      (some ⟨((4 : Fin 8), (1 : Fin 8)), ((4 : Fin 8), (3 : Fin 8)), none⟩,
        Status.moveConfirmed,
        initBoard.push ⟨((4 : Fin 8), (1 : Fin 8)), ((4 : Fin 8), (3 : Fin 8)), none⟩) :=
  ⟨by decide, (c1_implied_snapshot_resolution initBoard
      ⟨((4 : Fin 8), (1 : Fin 8)), ((4 : Fin 8), (3 : Fin 8)), none⟩
      ReachableBoard.init (by decide)).2.2.1
    (by decide) (by decide) (by decide) (Or.inl rfl)⟩

end ChessVision
